import Mathlib

/-!
Verification of the kkumtl-demo novel-writing assistant.

Strings are modelled as `List Char`.  JavaScript string builtins
(`trim`, `trimStart`, `startsWith`, `substring`, `lastIndexOf`) are given
executable Lean counterparts; DOM behaviour (text-node serialisation,
`textContent` extraction, selection ranges) is modelled by explicit
functions noted at their definitions.  Each definition mirrors one
function of the source; line references are given in the doc comments.
-/

/-- The whitespace class used by JavaScript `trim`/`trimStart` and by the
regex class `[\s]` (ASCII whitespace plus no-break space). -/
def isJsWs (c : Char) : Bool :=
  c = ' ' || c = '\t' || c = '\n' || c = '\r' || c = '\x0b' || c = '\x0c' || c = ' '

/-- JavaScript `String.prototype.trimStart`. -/
def trimStartL (s : List Char) : List Char :=
  s.dropWhile isJsWs

/-- JavaScript `String.prototype.trimEnd`. -/
def trimEndL (s : List Char) : List Char :=
  (s.reverse.dropWhile isJsWs).reverse

/-- JavaScript `String.prototype.trim`. -/
def trimL (s : List Char) : List Char :=
  trimEndL (trimStartL s)

/-!
## Generation text post-processing (src/unnamed/part_000)
-/

/-- The descending overlap search of `stripPrefill`
(src/unnamed/part_000 lines 653-658): for `i` from the given bound down
to 1, test whether the suffix of the trimmed prefill of length `i` is a
prefix of the trimmed generated text; the first (longest) hit wins. -/
def overlapLoop (tg tp : List Char) : Nat → Option Nat
  | 0 => none
  | i + 1 =>
    if (tp.drop (tp.length - (i + 1))).isPrefixOf tg then some (i + 1)
    else overlapLoop tg tp i

/-- `stripPrefill` (src/unnamed/part_000 lines 640-661): removes a leading
echo of the prefill from the generated text, either as a whole or by the
longest suffix/prefix overlap of length at most 50. -/
def stripPrefill (generated prefill : List Char) : List Char :=
  if prefill = [] ∨ generated = [] then generated
  else
    let tg := trimStartL generated
    let tp := trimL prefill
    if tp.isPrefixOf tg then trimStartL (tg.drop tp.length)
    else
      match overlapLoop tg tp (min tp.length 50) with
      | some i => trimStartL (tg.drop i)
      | none => generated

/-- The overlap predicate of the claim: the suffix of the trimmed prefill
of length `k` (with `0 < k`) is a prefix of the trimmed generated text. -/
def OverlapAt (tg tp : List Char) (k : Nat) : Prop :=
  0 < k ∧ (tp.drop (tp.length - k)).isPrefixOf tg = true

instance (tg tp : List Char) : DecidablePred (OverlapAt tg tp) := fun _ =>
  instDecidableAnd

/-- The claim's reading of `stripPrefill`: strip a verbatim echo of the
trimmed prefill, else strip the longest overlap of length at most 50
(`Nat.findGreatest` picks the largest witness), else return the generated
text unchanged; kept remainders are left-trimmed. -/
def stripPrefillSpec (generated prefill : List Char) : List Char :=
  if prefill = [] ∨ generated = [] then generated
  else
    let tg := trimStartL generated
    let tp := trimL prefill
    if tp.isPrefixOf tg then trimStartL (tg.drop tp.length)
    else
      let k := Nat.findGreatest (OverlapAt tg tp) (min tp.length 50)
      if k = 0 then generated else trimStartL (tg.drop k)

theorem overlapLoop_eq_findGreatest (tg tp : List Char) (n : Nat) :
    overlapLoop tg tp n =
      if Nat.findGreatest (OverlapAt tg tp) n = 0 then none
      else some (Nat.findGreatest (OverlapAt tg tp) n) := by
  induction n with
  | zero => simp [overlapLoop, Nat.findGreatest]
  | succ m ih =>
    rw [overlapLoop, Nat.findGreatest]
    by_cases h : (tp.drop (tp.length - (m + 1))).isPrefixOf tg
    · have hp : OverlapAt tg tp (m + 1) := ⟨Nat.succ_pos m, h⟩
      simp [h, if_pos hp]
    · have hp : ¬ OverlapAt tg tp (m + 1) := by
        intro hc; exact h hc.2
      simp [h, if_neg hp, ih]

/-- The example of the claim: generated text
`the door creaked open and she stepped inside.` with prefill
`the door creaked`. -/
def c6Generated : List Char := "the door creaked open and she stepped inside.".data

/-- The prefill of the claim's example. -/
def c6Prefill : List Char := "the door creaked".data

/-- Claim C6: `stripPrefill` removes a verbatim echo of the trimmed
prefill from the left-trimmed generated text; otherwise it removes the
longest prefill-suffix/generated-prefix overlap of length at most 50
(longest overlap wins, via `Nat.findGreatest`); kept remainders are
left-trimmed and with no overlap the generated text is returned
unchanged.  In particular the claim's example yields
`open and she stepped inside.`. -/
theorem stripPrefill_meets_spec (generated prefill : List Char)
    (_ : prefill ≠ []) :
    stripPrefill generated prefill = stripPrefillSpec generated prefill ∧
      stripPrefill c6Generated c6Prefill = "open and she stepped inside.".data := by
  constructor
  · by_cases h0 : prefill = [] ∨ generated = []
    · unfold stripPrefill stripPrefillSpec
      rw [if_pos h0, if_pos h0]
    · unfold stripPrefill stripPrefillSpec
      rw [if_neg h0, if_neg h0]
      by_cases h1 :
          (trimL prefill).isPrefixOf (trimStartL generated) = true
      · simp [h1]
      · simp only [if_neg (by simpa using h1)]
        rw [overlapLoop_eq_findGreatest]
        by_cases h2 :
            Nat.findGreatest (OverlapAt (trimStartL generated) (trimL prefill))
              (min (trimL prefill).length 50) = 0
        · simp [h2]
        · simp [h2]
  · decide

theorem stripPrefill_meets_spec_witness :
    stripPrefill c6Generated c6Prefill = stripPrefillSpec c6Generated c6Prefill ∧
      stripPrefill c6Generated c6Prefill = "open and she stepped inside.".data :=
  stripPrefill_meets_spec c6Generated c6Prefill (by decide)

/-!
## Sentence-ending policy and the non-streaming completion path
(src/unnamed/part_000 lines 668-771, src/js/gemini.js lines 315-349)
-/

/-- The test `/[.!?]["']?$/` of `ensureProperEnding`
(src/unnamed/part_000 line 674): the text ends with terminal punctuation,
optionally followed by one quote character. -/
def endsProperly (s : List Char) : Bool :=
  match s.reverse with
  | [] => false
  | c :: rest =>
    if c = '.' || c = '!' || c = '?' then true
    else if c = '"' || c = '\'' then
      match rest with
      | c2 :: _ => c2 = '.' || c2 = '!' || c2 = '?'
      | [] => false
    else false

/-- JavaScript `String.prototype.lastIndexOf(char)`: the largest index
holding `c`, or `-1`. -/
def jsLastIndexOf (s : List Char) (c : Char) : Int :=
  match ((List.range s.length).filter fun i => s.getD i ' ' = c).getLast? with
  | some i => (i : Int)
  | none => -1

/-- JavaScript `String.prototype.lastIndexOf(char, position)`: the largest
index `i ≤ max position 0` holding `c`, or `-1` (a negative position is
clamped to `0`, so only index `0` is searched). -/
def jsLastIndexOfFrom (s : List Char) (c : Char) (position : Int) : Int :=
  match ((List.range s.length).filter fun i =>
      s.getD i ' ' = c ∧ (i : Int) ≤ max position 0).getLast? with
  | some i => (i : Int)
  | none => -1

/-- `ensureProperEnding` (src/unnamed/part_000 lines 668-718).  Note:
this routine is defined by the source but never invoked on any path. -/
def ensureProperEnding (text : List Char) : List Char :=
  if text = [] ∨ trimL text = [] then text
  else
    let trimmed := trimL text
    if endsProperly trimmed then trimmed
    else if "...".data.isSuffixOf trimmed then trimmed
    else
      let soft := match trimmed.reverse with
        | [] => false
        | c :: _ => c = ',' || c = ';' || c = ':' || c = '-' || c = '—'
      let lastComplete :=
        max (jsLastIndexOf trimmed '.')
          (max (jsLastIndexOf trimmed '?') (jsLastIndexOf trimmed '!'))
      if soft && decide ((trimmed.length : Int) < 2 * lastComplete) then
        let endIndex := (lastComplete + 1).toNat
        let endIndex :=
          if trimmed.getD endIndex ' ' = '"' || trimmed.getD endIndex ' ' = '\'' then
            endIndex + 1
          else endIndex
        trimmed.take endIndex
      else
        let lastQuote := jsLastIndexOf trimmed '"'
        let secondLastQuote := jsLastIndexOfFrom trimmed '"' (lastQuote - 1)
        if decide (secondLastQuote < lastQuote) &&
            !decide (lastQuote = (trimmed.length : Int) - 1) then
          trimmed ++ ['.', '"']
        else
          trimmed ++ ['.']

/-- Outcome of a generation call: exactly one of the two explicit
callback channels is invoked. -/
inductive GenOutcome
  | complete (text : List Char)
  | error (code : List Char)
deriving DecidableEq

/-- The `EMPTY_RESPONSE` error message of both non-streaming variants. -/
def emptyResponseMsg : List Char :=
  "EMPTY_RESPONSE: The AI returned an empty response".data

/-- The response-processing core of `generateWithoutStreaming`
(src/unnamed/part_000 lines 747-762): given the text extracted from the
provider response (empty when absent) and the prefill, either
`onComplete` is called with the prefill-stripped text or `onError` with
`EMPTY_RESPONSE` (thrown errors are caught in the same function and
routed to `onError`). -/
def generateWithoutStreamingCore (providerText prefill : List Char) : GenOutcome :=
  if providerText = [] then .error emptyResponseMsg
  else
    let text := stripPrefill providerText prefill
    if text = [] ∨ (trimL text).length = 0 then .error emptyResponseMsg
    else .complete text

/-- The response-processing core of `generateWithoutStreaming` in
src/js/gemini.js lines 333-340: no prefill handling; empty text is an
`EMPTY_RESPONSE` error, otherwise `onComplete` receives the text
verbatim. -/
def geminiGenerateWithoutStreamingCore (providerText : List Char) : GenOutcome :=
  if providerText = [] then .error emptyResponseMsg
  else .complete providerText

/-- The soft-ending text of the claim's example, handed back by the
provider with no prefill. -/
def c5Raw : List Char := "It rained. And then, suddenly,".data

/-- Counterexample to claim C5: the non-streaming completion path hands
`It rained. And then, suddenly,` to the completion callback unchanged,
ending in a comma — no sentence-boundary policy is applied (the policy,
had it run, would not leave a soft trailing comma). -/
theorem nonStreaming_no_ending_repair_counterexample :
    generateWithoutStreamingCore c5Raw [] = .complete c5Raw ∧
      endsProperly c5Raw = false ∧
      ensureProperEnding c5Raw ≠ c5Raw := by
  refine ⟨by decide, by decide, by decide⟩

/-- Claim C5 (amended): on every non-streaming completion the text handed
to the completion callback is exactly `stripPrefill` of the provider
text — no sentence-ending repair is applied (`ensureProperEnding` exists
in the source but is never invoked on this path). -/
theorem nonStreaming_completion_is_stripped_text (raw prefill : List Char)
    (hraw : raw ≠ []) (hne : stripPrefill raw prefill ≠ [])
    (ht : trimL (stripPrefill raw prefill) ≠ []) :
    generateWithoutStreamingCore raw prefill = .complete (stripPrefill raw prefill) := by
  unfold generateWithoutStreamingCore
  rw [if_neg hraw, if_neg]
  simp only [List.length_eq_zero, not_or]
  exact ⟨hne, ht⟩

theorem nonStreaming_completion_is_stripped_text_witness :
    generateWithoutStreamingCore c5Raw [] = .complete (stripPrefill c5Raw []) :=
  nonStreaming_completion_is_stripped_text c5Raw [] (by decide) (by decide) (by decide)

/-- Claim C8: whenever the provider returns no text, or text that becomes
empty (or whitespace-only) after prefill stripping, the non-streaming
path reports `EMPTY_RESPONSE` through the error callback and never
invokes the completion callback, in both source variants; the outcome is
a value of the explicit callback channel `GenOutcome`, never a thrown
exception (both cores are total functions into `GenOutcome`). -/
theorem nonStreaming_empty_is_error (raw prefill : List Char)
    (h : raw = [] ∨ trimL (stripPrefill raw prefill) = []) :
    generateWithoutStreamingCore raw prefill = .error emptyResponseMsg ∧
      (∀ t, generateWithoutStreamingCore raw prefill ≠ .complete t) ∧
      geminiGenerateWithoutStreamingCore [] = .error emptyResponseMsg ∧
      (∀ t, geminiGenerateWithoutStreamingCore [] ≠ .complete t) := by
  have hmain : generateWithoutStreamingCore raw prefill = .error emptyResponseMsg := by
    unfold generateWithoutStreamingCore
    rcases h with h | h
    · rw [if_pos h]
    · by_cases hr : raw = []
      · rw [if_pos hr]
      · rw [if_neg hr, if_pos]
        right
        simp [h]
  refine ⟨hmain, ?_, by rfl, ?_⟩
  · intro t hc
    rw [hmain] at hc
    exact GenOutcome.noConfusion hc
  · intro t hc
    exact GenOutcome.noConfusion hc

theorem nonStreaming_empty_is_error_witness :
    generateWithoutStreamingCore "abc ".data "abc".data = .error emptyResponseMsg ∧
      (∀ t, generateWithoutStreamingCore "abc ".data "abc".data ≠ .complete t) ∧
      geminiGenerateWithoutStreamingCore [] = .error emptyResponseMsg ∧
      (∀ t, geminiGenerateWithoutStreamingCore [] ≠ .complete t) :=
  nonStreaming_empty_is_error "abc ".data "abc".data (by decide)

/-!
## Undo/redo history stacks (src/js/storage.js lines 202-277)
-/

/-- The two in-memory history stacks.  The source keeps them as arrays
pushed and popped at the end; here the top of each stack is the list
head. -/
structure HistoryState where
  undoStack : List (List Char)
  redoStack : List (List Char)
deriving DecidableEq

/-- `undo(currentContent)` (src/js/storage.js lines 232-239): with an
empty undo stack return `null` and change nothing; otherwise push the
current content on the redo stack and pop and return the undo top. -/
def undoFn (st : HistoryState) (current : List Char) :
    Option (List Char) × HistoryState :=
  match st.undoStack with
  | [] => (none, st)
  | top :: rest => (some top, ⟨rest, current :: st.redoStack⟩)

/-- `redo(currentContent)` (src/js/storage.js lines 246-253): symmetric
to `undoFn`. -/
def redoFn (st : HistoryState) (current : List Char) :
    Option (List Char) × HistoryState :=
  match st.redoStack with
  | [] => (none, st)
  | top :: rest => (some top, ⟨current :: st.undoStack, rest⟩)

/-- Claim C9: with a non-empty undo stack, `undo(c)` returns the most
recently pushed snapshot and pushes `c` on the redo stack; an immediately
following `redo` called with the returned snapshot returns `c` and
restores both stacks exactly; with an empty source stack, `undo`
(respectively `redo`) returns `null` and leaves both stacks unchanged. -/
theorem undo_redo_roundtrip (st : HistoryState) (c : List Char) :
    (st.undoStack = [] → undoFn st c = (none, st)) ∧
      (∀ top rest, st.undoStack = top :: rest →
        undoFn st c = (some top, ⟨rest, c :: st.redoStack⟩) ∧
          redoFn ⟨rest, c :: st.redoStack⟩ top = (some c, st)) ∧
      (st.redoStack = [] → redoFn st c = (none, st)) := by
  refine ⟨fun h => ?_, fun top rest h => ⟨?_, ?_⟩, fun h => ?_⟩
  · simp [undoFn, h]
  · simp [undoFn, h]
  · cases st with
    | mk u r => simp_all [redoFn]
  · cases st with
    | mk u r => simp_all [redoFn]

theorem undo_redo_roundtrip_witness :
    undoFn ⟨["a".data], []⟩ "b".data = (some "a".data, ⟨[], ["b".data]⟩) ∧
      redoFn ⟨[], ["b".data]⟩ "a".data = (some "b".data, ⟨["a".data], []⟩) :=
  (undo_redo_roundtrip ⟨["a".data], []⟩ "b".data).2.1 "a".data [] rfl

/-!
## Settings / formatting persistence (src/js/storage.js lines 26-68, 144-152, 181-189)
-/

/-- A JavaScript value as stored in the settings objects. -/
inductive JsVal
  | s (v : List Char)
  | n (v : ℚ)
  | b (v : Bool)
deriving DecidableEq

/-- A JavaScript object, as an ordered field list (later entries override
earlier ones, as in object literals). -/
abbrev JsObj : Type := List (List Char × JsVal)

/-- Property lookup on a `JsObj` (the last binding of a key wins). -/
def getKey : JsObj → List Char → Option JsVal
  | [], _ => none
  | p :: rest, k =>
    match getKey rest k with
    | some v => some v
    | none => if p.1 = k then some p.2 else none

/-- The object spread `{ ...d, ...s }`: keys of `d` keep their position
with the value overridden by `s` where present; keys only in `s` are
appended. -/
def spreadMerge (d s : JsObj) : JsObj :=
  (d.map fun p => (p.1, (getKey s p.1).getD p.2)) ++
    s.filter fun p => getKey d p.1 = none

/-- `DEFAULT_SETTINGS` (src/js/storage.js lines 26-37). -/
def DEFAULT_SETTINGS : JsObj :=
  [("model".data, .s "gemini-1.5-pro".data),
   ("temperature".data, .n (8 / 10)),
   ("maxWords".data, .n 150),
   ("paragraphLength".data, .s "medium".data),
   ("language".data, .s "EN".data),
   ("genre".data, .s "fantasy".data),
   ("style".data, .s "descriptive".data),
   ("tone".data, .s "neutral".data),
   ("pov".data, .s "third-limited".data),
   ("streaming".data, .b true)]

/-- `DEFAULT_FORMATTING` (src/js/storage.js lines 39-49). -/
def DEFAULT_FORMATTING : JsObj :=
  [("fontFamily".data, .s "Merriweather, serif".data),
   ("fontSize".data, .n 18),
   ("lineHeight".data, .n (18 / 10)),
   ("paragraphSpacing".data, .n (15 / 10)),
   ("dialogueColor".data, .s "#e67e22".data),
   ("thoughtsColor".data, .s "#3498db".data),
   ("emphasisColor".data, .s "#9b59b6".data),
   ("textColor".data, .s "#2c3e50".data),
   ("bgColor".data, .s "#fdf6e3".data)]

/-- The state of one localStorage entry, as the claim's trichotomy:
absent, holding JSON that `JSON.parse` rejects, or holding a JSON object
with the given fields (`JSON.parse` is a host builtin, modelled by its
outcome). -/
inductive StorageEntry
  | missing
  | corrupt
  | saved (fields : JsObj)

/-- `safeJsonParse` (src/js/storage.js lines 61-68): a `null` entry is
falsy so the default is returned; a parse error is caught and the
default returned; otherwise the parsed object. -/
def safeJsonParse (e : StorageEntry) (defaultValue : JsObj) : JsObj :=
  match e with
  | .missing => defaultValue
  | .corrupt => defaultValue
  | .saved fields => fields

/-- `loadSettings` (src/js/storage.js lines 148-152):
`{ ...DEFAULT_SETTINGS, ...safeJsonParse(data, {}) }`. -/
def loadSettings (e : StorageEntry) : JsObj :=
  spreadMerge DEFAULT_SETTINGS (safeJsonParse e [])

/-- `loadFormatting` (src/js/storage.js lines 185-189). -/
def loadFormatting (e : StorageEntry) : JsObj :=
  spreadMerge DEFAULT_FORMATTING (safeJsonParse e [])

theorem getKey_append (a b : JsObj) (k : List Char) :
    getKey (a ++ b) k =
      match getKey b k with
      | some v => some v
      | none => getKey a k := by
  induction a with
  | nil =>
    cases h : getKey b k <;> simp [getKey, h]
  | cons p rest ih =>
    show getKey (p :: (rest ++ b)) k = _
    rw [getKey, ih]
    cases h : getKey b k <;> cases h2 : getKey rest k <;> simp [getKey, h, h2]

theorem getKey_map (d : JsObj) (g : List Char → JsVal → JsVal) (k : List Char) :
    getKey (d.map fun p => (p.1, g p.1 p.2)) k = (getKey d k).map (g k) := by
  induction d with
  | nil => rfl
  | cons p rest ih =>
    rw [List.map_cons, getKey, ih, getKey]
    cases h2 : getKey rest k with
    | some v => rfl
    | none =>
      by_cases hk : p.1 = k
      · subst hk
        simp
      · simp [hk]

theorem getKey_filter_none (s : JsObj) (d : JsObj) (k : List Char)
    (hd : getKey d k ≠ none) :
    getKey (s.filter fun p => getKey d p.1 = none) k = none := by
  induction s with
  | nil => rfl
  | cons p rest ih =>
    by_cases hp : getKey d p.1 = none
    · rw [List.filter_cons_of_pos (by simpa using hp), getKey, ih]
      by_cases hk : p.1 = k
      · exact absurd (hk ▸ hp) hd
      · simp [hk]
    · rw [List.filter_cons_of_neg (by simpa using hp)]
      exact ih

theorem spreadMerge_lookup (d s : JsObj) (k : List Char) (dv : JsVal)
    (hd : getKey d k = some dv) :
    getKey (spreadMerge d s) k = some ((getKey s k).getD dv) := by
  rw [spreadMerge, getKey_append,
    getKey_filter_none s d k (by simp [hd]),
    getKey_map d (fun key v => (getKey s key).getD v) k, hd]
  rfl

theorem spreadMerge_empty (d : JsObj) : spreadMerge d [] = d := by
  rw [spreadMerge]
  simp [getKey]

/-- Claim C10: `loadSettings` and `loadFormatting` are total (they are
Lean functions on every `StorageEntry`, the parse failure being caught
inside `safeJsonParse`), a missing or corrupt entry degrades to exactly
the defaults, and every key of `DEFAULT_SETTINGS` (respectively
`DEFAULT_FORMATTING`) is present in the result, with saved fields
overriding the default value and absent fields filled from it. -/
theorem load_total_and_defaults_complete (e : StorageEntry) (k : List Char)
    (dv : JsVal) :
    (loadSettings .missing = DEFAULT_SETTINGS ∧
      loadSettings .corrupt = DEFAULT_SETTINGS ∧
      loadFormatting .missing = DEFAULT_FORMATTING ∧
      loadFormatting .corrupt = DEFAULT_FORMATTING) ∧
    (getKey DEFAULT_SETTINGS k = some dv →
      getKey (loadSettings e) k = some ((getKey (safeJsonParse e []) k).getD dv)) ∧
    (getKey DEFAULT_FORMATTING k = some dv →
      getKey (loadFormatting e) k = some ((getKey (safeJsonParse e []) k).getD dv)) := by
  refine ⟨⟨?_, ?_, ?_, ?_⟩, fun hd => ?_, fun hd => ?_⟩
  · exact spreadMerge_empty DEFAULT_SETTINGS
  · exact spreadMerge_empty DEFAULT_SETTINGS
  · exact spreadMerge_empty DEFAULT_FORMATTING
  · exact spreadMerge_empty DEFAULT_FORMATTING
  · exact spreadMerge_lookup DEFAULT_SETTINGS (safeJsonParse e []) k dv hd
  · exact spreadMerge_lookup DEFAULT_FORMATTING (safeJsonParse e []) k dv hd

theorem load_total_and_defaults_complete_witness :
    getKey (loadSettings (.saved [("model".data, .s "gemini-2.0".data)]))
        "model".data =
      some ((getKey (safeJsonParse
        (.saved [("model".data, .s "gemini-2.0".data)]) []) "model".data).getD
          (.s "gemini-1.5-pro".data)) :=
  (load_total_and_defaults_complete
    (.saved [("model".data, .s "gemini-2.0".data)]) "model".data
    (.s "gemini-1.5-pro".data)).2.1 (by decide)

/-!
## Realtime formatter (src/unnamed/part_005 lines 106-165 and
src/unnamed/part_004 lines 101-139) and preview formatter
(src/js/formatter.js lines 41-81)

The span tags written by the replacement callbacks:
-/

def dlgOpenTag : List Char := "<span class=\"dialogue\">".data

def thOpenTag : List Char := "<span class=\"thoughts\">".data

def emOpenTag : List Char := "<span class=\"emphasis\">".data

def closeTag : List Char := "</span>".data

/-- One character of the browser serialisation used by `escapeHtml` of
both realtime variants (`div.textContent = text; div.innerHTML`): `&`,
`<` and `>` become character references; quotes are left alone. -/
def escapeChar (c : Char) : List Char :=
  if c = '&' then "&amp;".data
  else if c = '<' then "&lt;".data
  else if c = '>' then "&gt;".data
  else [c]

/-- `escapeHtml` of the realtime formatter variants. -/
def escapeHtml : List Char → List Char
  | [] => []
  | c :: r => escapeChar c ++ escapeHtml r

/-- Splits a string at the first occurrence of `d`. -/
def splitAtChar (d : Char) : List Char → Option (List Char × List Char)
  | [] => none
  | c :: r =>
    if c = d then some ([], r)
    else
      match splitAtChar d r with
      | some (a, b) => some (c :: a, b)
      | none => none

/-!
The global replace of a regex `d([^d]+)d` by `pre ++ content ++ post`,
as the scan the JavaScript regex engine performs: successive occurrences
of `d` pair up when the enclosed run is non-empty; a `d` immediately
followed by another `d` stays literal and the second `d` opens the next
candidate; an unclosed trailing `d` leaves the remainder verbatim (no
later occurrence of `d` exists, so no further match is possible).
`scanPair` is the state outside a candidate match, `scanPairIn` inside
one with the pending content accumulated in reverse.
-/

mutual

def scanPair (d : Char) (pre post : List Char) : List Char → List Char
  | [] => []
  | c :: r => if c = d then scanPairIn d pre post [] r else c :: scanPair d pre post r

def scanPairIn (d : Char) (pre post : List Char) (acc : List Char) :
    List Char → List Char
  | [] => d :: acc.reverse
  | c :: r =>
    if c = d then
      if acc = [] then d :: scanPairIn d pre post [] r
      else pre ++ acc.reverse ++ post ++ scanPair d pre post r
    else scanPairIn d pre post (c :: acc) r

end

/-!
`scanPairSpans` lists the contents the same scan wraps (used to speak
about the styled spans a formatter produces).
-/

mutual

def scanPairSpans (d : Char) : List Char → List (List Char)
  | [] => []
  | c :: r => if c = d then scanPairSpansIn d [] r else scanPairSpans d r

def scanPairSpansIn (d : Char) (acc : List Char) : List Char → List (List Char)
  | [] => []
  | c :: r =>
    if c = d then
      if acc = [] then scanPairSpansIn d [] r
      else acc.reverse :: scanPairSpans d r
    else scanPairSpansIn d (c :: acc) r

end

/-- The dialogue replacement of src/unnamed/part_005 lines 120-123:
`"([^"]+)"` becomes `<span class="dialogue">"$1"</span>` (the quotes are
kept inside the span). -/
def dialogueReplace (s : List Char) : List Char :=
  scanPair '"' (dlgOpenTag ++ ['"']) ('"' :: closeTag) s

/-- The emphasis replacement of part_005 lines 133-136 and part_004
lines 127-130: `\*([^*]+)\*` becomes `<span class="emphasis">$1</span>`;
the asterisks are dropped. -/
def emphasisReplace (s : List Char) : List Char :=
  scanPair '*' emOpenTag closeTag s

/-!
The thoughts replacement of part_005 lines 127-131:
`(^|[\s])'([^']+)'` with the matched prefix re-emitted before the span.
The scan carries the guard flag: a quote can open a candidate only at
the start of the string or right after a whitespace character, and the
character before the position after any emitted piece determines the
flag afresh.
-/

mutual

def scanThought (g : Bool) : List Char → List Char
  | [] => []
  | c :: r =>
    if c = '\'' && g then scanThoughtIn [] r
    else c :: scanThought (isJsWs c) r

def scanThoughtIn (acc : List Char) : List Char → List Char
  | [] => '\'' :: acc.reverse
  | c :: r =>
    if c = '\'' then
      if acc = [] then '\'' :: '\'' :: scanThought false r
      else thOpenTag ++ '\'' :: acc.reverse ++ '\'' :: closeTag ++ scanThought false r
    else scanThoughtIn (c :: acc) r

end

/-- `applyRealtimeFormatting` of src/unnamed/part_005 lines 106-145:
escape, then the dialogue, thoughts and emphasis replacements in
order (each running on the previous replacement's output). -/
def applyRealtimeFormatting005 (text : List Char) : List Char :=
  emphasisReplace (scanThought true (dialogueReplace (escapeHtml text)))

/-!
The part_004 realtime variant (lines 114-130) replaces
`&quot;([^&quot;]+)&quot;` and `&#39;([^&#39;]+)&#39;` on the escaped
text; the delimiters are the literal entity texts, and the negated
character classes exclude the characters of those texts.  A candidate's
content run stops at the first excluded character; the match succeeds
only when the closing entity text starts exactly there (the delimiter
begins with `&`, which is excluded from the content, so backtracking
cannot succeed anywhere else).
-/

mutual

def scanQuotEnt : List Char → List Char
  | [] => []
  | '&' :: 'q' :: 'u' :: 'o' :: 't' :: ';' :: r2 => scanQuotEntIn [] r2
  | c :: r => c :: scanQuotEnt r

def scanQuotEntIn (acc : List Char) : List Char → List Char
  | [] => "&quot;".data ++ acc.reverse
  | '&' :: 'q' :: 'u' :: 'o' :: 't' :: ';' :: r2 =>
    if acc = [] then "&quot;".data ++ scanQuotEntIn [] r2
    else dlgOpenTag ++ '"' :: acc.reverse ++ '"' :: closeTag ++ scanQuotEnt r2
  | c :: r =>
    if c = '&' || c = 'q' || c = 'u' || c = 'o' || c = 't' || c = ';' then
      "&quot;".data ++ acc.reverse ++ c :: scanQuotEnt r
    else scanQuotEntIn (c :: acc) r

end

mutual

def scanAposEnt : List Char → List Char
  | [] => []
  | '&' :: '#' :: '3' :: '9' :: ';' :: r2 => scanAposEntIn [] r2
  | c :: r => c :: scanAposEnt r

def scanAposEntIn (acc : List Char) : List Char → List Char
  | [] => "&#39;".data ++ acc.reverse
  | '&' :: '#' :: '3' :: '9' :: ';' :: r2 =>
    if acc = [] then "&#39;".data ++ scanAposEntIn [] r2
    else thOpenTag ++ '\'' :: acc.reverse ++ '\'' :: closeTag ++ scanAposEnt r2
  | c :: r =>
    if c = '&' || c = '#' || c = '3' || c = '9' || c = ';' then
      "&#39;".data ++ acc.reverse ++ c :: scanAposEnt r
    else scanAposEntIn (c :: acc) r

end

/-- `applyRealtimeFormatting` of src/unnamed/part_004 lines 101-139:
escape, then the entity-delimited dialogue and thoughts replacements,
then the emphasis replacement. -/
def applyRealtimeFormatting004 (text : List Char) : List Char :=
  emphasisReplace (scanAposEnt (scanQuotEnt (escapeHtml text)))

/-!
The browser's plain-text extraction (`element.textContent` after
`innerHTML` assignment, `getPlainText` of part_005 lines 163-165): the
markup is tokenised — everything from `<` to the next `>` is a tag and
contributes nothing — and character references in character data are
decoded.
-/

/-- Tag stripping: `b = true` while inside `<...>`. -/
def stripTagsFrom (b : Bool) : List Char → List Char
  | [] => []
  | c :: r =>
    if b then
      if c = '>' then stripTagsFrom false r else stripTagsFrom true r
    else
      if c = '<' then stripTagsFrom true r else c :: stripTagsFrom false r

def stripTags (s : List Char) : List Char :=
  stripTagsFrom false s

mutual

/-- Character-reference decoding of the references this development's
HTML can contain. -/
def decodeEntities : List Char → List Char
  | [] => []
  | c :: r => if c = '&' then decodeRef r else c :: decodeEntities r

def decodeRef : List Char → List Char
  | 'a' :: 'm' :: 'p' :: ';' :: r => '&' :: decodeEntities r
  | 'l' :: 't' :: ';' :: r => '<' :: decodeEntities r
  | 'g' :: 't' :: ';' :: r => '>' :: decodeEntities r
  | 'q' :: 'u' :: 'o' :: 't' :: ';' :: r => '"' :: decodeEntities r
  | '#' :: '3' :: '9' :: ';' :: r => '\'' :: decodeEntities r
  | [] => ['&']
  | c :: r => if c = '&' then '&' :: decodeRef r else '&' :: c :: decodeEntities r

end

/-- The plain text the browser reports for a rendered HTML string. -/
def textContentOf (s : List Char) : List Char :=
  decodeEntities (stripTags s)

/-!
## Well-formedness of the pipeline's HTML strings

`EWf` describes escaped character data (no tags): raw characters other
than `&` and `<`, and the three references the escaping writes.  `HWf`
additionally allows the four span tags.  `textContentOf` is computed by
structure over these grammars.
-/

def tagList : List (List Char) := [dlgOpenTag, thOpenTag, emOpenTag, closeTag]

inductive EWf : List Char → Prop
  | nil : EWf []
  | raw {c : Char} {r : List Char} : c ≠ '&' → c ≠ '<' → EWf r → EWf (c :: r)
  | amp {r : List Char} : EWf r → EWf ("&amp;".data ++ r)
  | ltE {r : List Char} : EWf r → EWf ("&lt;".data ++ r)
  | gtE {r : List Char} : EWf r → EWf ("&gt;".data ++ r)

inductive HWf : List Char → Prop
  | nil : HWf []
  | raw {c : Char} {r : List Char} : c ≠ '&' → c ≠ '<' → HWf r → HWf (c :: r)
  | amp {r : List Char} : HWf r → HWf ("&amp;".data ++ r)
  | ltE {r : List Char} : HWf r → HWf ("&lt;".data ++ r)
  | gtE {r : List Char} : HWf r → HWf ("&gt;".data ++ r)
  | tag {t r : List Char} : t ∈ tagList → HWf r → HWf (t ++ r)

theorem EWf.toHWf {s : List Char} (h : EWf s) : HWf s := by
  induction h with
  | nil => exact HWf.nil
  | raw h1 h2 _ ih => exact HWf.raw h1 h2 ih
  | amp _ ih => exact HWf.amp ih
  | ltE _ ih => exact HWf.ltE ih
  | gtE _ ih => exact HWf.gtE ih

theorem HWf.append {a b : List Char} (ha : HWf a) (hb : HWf b) : HWf (a ++ b) := by
  induction ha with
  | nil => exact hb
  | raw h1 h2 _ ih => exact HWf.raw h1 h2 ih
  | amp _ ih => exact (List.append_assoc _ _ _) ▸ HWf.amp ih
  | ltE _ ih => exact (List.append_assoc _ _ _) ▸ HWf.ltE ih
  | gtE _ ih => exact (List.append_assoc _ _ _) ▸ HWf.gtE ih
  | tag ht _ ih => exact (List.append_assoc _ _ _) ▸ HWf.tag ht ih

/-!
Computation rules for `textContentOf` over the grammar.
-/

theorem stripTagsFrom_false_cons_ne {c : Char} (r : List Char) (h : c ≠ '<') :
    stripTagsFrom false (c :: r) = c :: stripTagsFrom false r := by
  simp [stripTagsFrom, h]

theorem stripTagsFrom_copy {ys : List Char} (r : List Char)
    (h : ∀ y ∈ ys, y ≠ '<') :
    stripTagsFrom false (ys ++ r) = ys ++ stripTagsFrom false r := by
  induction ys with
  | nil => rfl
  | cons y ys ih =>
    rw [List.cons_append, stripTagsFrom_false_cons_ne _ (h y (by simp)),
      ih fun y hy => h y (by simp [hy])]
    rfl

theorem stripTagsFrom_true_append {inner : List Char} (r : List Char)
    (h : ∀ y ∈ inner, y ≠ '>') :
    stripTagsFrom true (inner ++ '>' :: r) = stripTagsFrom false r := by
  induction inner with
  | nil => simp [stripTagsFrom]
  | cons y ys ih =>
    rw [List.cons_append]
    show stripTagsFrom true (y :: (ys ++ '>' :: r)) = _
    rw [show stripTagsFrom true (y :: (ys ++ '>' :: r)) =
        stripTagsFrom true (ys ++ '>' :: r) by
      simp [stripTagsFrom, h y (by simp)]]
    exact ih fun y hy => h y (by simp [hy])

theorem decodeEntities_cons_ne {c : Char} (r : List Char) (h : c ≠ '&') :
    decodeEntities (c :: r) = c :: decodeEntities r := by
  simp [decodeEntities, h]

theorem textContentOf_cons {c : Char} (s : List Char) (h1 : c ≠ '&')
    (h2 : c ≠ '<') : textContentOf (c :: s) = c :: textContentOf s := by
  unfold textContentOf stripTags
  rw [stripTagsFrom_false_cons_ne _ h2, decodeEntities_cons_ne _ h1]

theorem textContentOf_amp (s : List Char) :
    textContentOf ("&amp;".data ++ s) = '&' :: textContentOf s := by
  unfold textContentOf stripTags
  rw [stripTagsFrom_copy _ (by decide)]
  rfl

theorem textContentOf_lt (s : List Char) :
    textContentOf ("&lt;".data ++ s) = '<' :: textContentOf s := by
  unfold textContentOf stripTags
  rw [stripTagsFrom_copy _ (by decide)]
  rfl

theorem textContentOf_gt (s : List Char) :
    textContentOf ("&gt;".data ++ s) = '>' :: textContentOf s := by
  unfold textContentOf stripTags
  rw [stripTagsFrom_copy _ (by decide)]
  rfl

theorem textContentOf_tag {t : List Char} (s : List Char) (ht : t ∈ tagList) :
    textContentOf (t ++ s) = textContentOf s := by
  unfold textContentOf stripTags
  simp only [tagList, List.mem_cons, List.not_mem_nil, or_false] at ht
  rcases ht with h | h | h | h
  · subst h
    show decodeEntities (stripTagsFrom false
      ('<' :: ("span class=\"dialogue\"".data ++ '>' :: s))) = _
    rw [show stripTagsFrom false ('<' :: ("span class=\"dialogue\"".data ++ '>' :: s)) =
        stripTagsFrom true ("span class=\"dialogue\"".data ++ '>' :: s) by
      simp [stripTagsFrom]]
    rw [stripTagsFrom_true_append _ (by decide)]
  · subst h
    show decodeEntities (stripTagsFrom false
      ('<' :: ("span class=\"thoughts\"".data ++ '>' :: s))) = _
    rw [show stripTagsFrom false ('<' :: ("span class=\"thoughts\"".data ++ '>' :: s)) =
        stripTagsFrom true ("span class=\"thoughts\"".data ++ '>' :: s) by
      simp [stripTagsFrom]]
    rw [stripTagsFrom_true_append _ (by decide)]
  · subst h
    show decodeEntities (stripTagsFrom false
      ('<' :: ("span class=\"emphasis\"".data ++ '>' :: s))) = _
    rw [show stripTagsFrom false ('<' :: ("span class=\"emphasis\"".data ++ '>' :: s)) =
        stripTagsFrom true ("span class=\"emphasis\"".data ++ '>' :: s) by
      simp [stripTagsFrom]]
    rw [stripTagsFrom_true_append _ (by decide)]
  · subst h
    show decodeEntities (stripTagsFrom false ('<' :: ("/span".data ++ '>' :: s))) = _
    rw [show stripTagsFrom false ('<' :: ("/span".data ++ '>' :: s)) =
        stripTagsFrom true ("/span".data ++ '>' :: s) by
      simp [stripTagsFrom]]
    rw [stripTagsFrom_true_append _ (by decide)]

theorem textContentOf_append {a : List Char} (b : List Char) (ha : HWf a) :
    textContentOf (a ++ b) = textContentOf a ++ textContentOf b := by
  induction ha with
  | nil => rfl
  | @raw c r h1 h2 _ ih =>
    rw [List.cons_append, textContentOf_cons _ h1 h2, textContentOf_cons _ h1 h2, ih]
    rfl
  | @amp r _ ih =>
    rw [List.append_assoc, textContentOf_amp, textContentOf_amp, ih]
    rfl
  | @ltE r _ ih =>
    rw [List.append_assoc, textContentOf_lt, textContentOf_lt, ih]
    rfl
  | @gtE r _ ih =>
    rw [List.append_assoc, textContentOf_gt, textContentOf_gt, ih]
    rfl
  | @tag t r ht _ ih =>
    rw [List.append_assoc, textContentOf_tag _ ht, textContentOf_tag _ ht, ih]

/-!
## Splitting and scanner bridging lemmas
-/

theorem splitAtChar_eq {d : Char} :
    ∀ {s a b : List Char}, splitAtChar d s = some (a, b) → s = a ++ d :: b ∧ d ∉ a := by
  intro s
  induction s with
  | nil => intro a b h; exact absurd h (by simp [splitAtChar])
  | cons c r ih =>
    intro a b h
    rw [splitAtChar] at h
    by_cases hc : c = d
    · rw [if_pos hc] at h
      injection h with h
      injection h with h1 h2
      subst h1; subst h2; subst hc
      exact ⟨rfl, by simp⟩
    · rw [if_neg hc] at h
      cases hsr : splitAtChar d r with
      | none => rw [hsr] at h; exact absurd h (by simp)
      | some p =>
        obtain ⟨a2, b2⟩ := p
        rw [hsr] at h
        injection h with h
        injection h with h1 h2
        subst h1; subst h2
        obtain ⟨he, hm⟩ := ih hsr
        exact ⟨by rw [he]; rfl, by simp [hm, Ne.symm hc]⟩

theorem splitAtChar_none {d : Char} :
    ∀ {s : List Char}, splitAtChar d s = none → d ∉ s := by
  intro s
  induction s with
  | nil => intro _; simp
  | cons c r ih =>
    intro h
    rw [splitAtChar] at h
    by_cases hc : c = d
    · rw [if_pos hc] at h; exact absurd h (by simp)
    · rw [if_neg hc] at h
      cases hsr : splitAtChar d r with
      | none => simpa [Ne.symm hc] using ih hsr
      | some p => rw [hsr] at h; exact absurd h (by simp)

theorem splitAtChar_append_not_mem {d : Char} {ys : List Char}
    (h : ∀ y ∈ ys, y ≠ d) (r : List Char) :
    splitAtChar d (ys ++ r) =
      (splitAtChar d r).map fun p => (ys ++ p.1, p.2) := by
  induction ys with
  | nil =>
    cases hr : splitAtChar d r with
    | none => simp [hr]
    | some p => simp [hr]
  | cons y ys ih =>
    rw [List.cons_append, splitAtChar, if_neg (h y (by simp)),
      ih fun x hx => h x (by simp [hx])]
    cases hr : splitAtChar d r with
    | none => simp
    | some p => simp

theorem not_mem_of_subset_ne {d : Char} {ys zs : List Char}
    (hsub : ∀ y ∈ ys, y ∈ zs) (hd : d ∉ zs) : ∀ y ∈ ys, y ≠ d :=
  fun y hy he => hd (he ▸ hsub y hy)

theorem scanPair_copy {d : Char} {pre post ys : List Char}
    (h : ∀ y ∈ ys, y ≠ d) (r : List Char) :
    scanPair d pre post (ys ++ r) = ys ++ scanPair d pre post r := by
  induction ys with
  | nil => rfl
  | cons y ys ih =>
    rw [List.cons_append]
    show scanPair d pre post (y :: (ys ++ r)) = _
    rw [show scanPair d pre post (y :: (ys ++ r)) =
        y :: scanPair d pre post (ys ++ r) by simp [scanPair, h y (by simp)]]
    rw [ih fun x hx => h x (by simp [hx])]
    rfl

theorem scanPairIn_no_delim {d : Char} {pre post : List Char} :
    ∀ {s : List Char} (acc : List Char), d ∉ s →
      scanPairIn d pre post acc s = d :: acc.reverse ++ s := by
  intro s
  induction s with
  | nil => intro acc _; simp [scanPairIn]
  | cons c r ih =>
    intro acc h
    have hc : c ≠ d := fun he => h (by simp [he])
    rw [show scanPairIn d pre post acc (c :: r) =
        scanPairIn d pre post (c :: acc) r by simp [scanPairIn, hc]]
    rw [ih (c :: acc) fun hm => h (by simp [hm])]
    simp

theorem scanPairIn_content {d : Char} {pre post : List Char} :
    ∀ {content : List Char} (acc s : List Char), (∀ y ∈ content, y ≠ d) →
      scanPairIn d pre post acc (content ++ s) =
        scanPairIn d pre post (content.reverse ++ acc) s := by
  intro content
  induction content with
  | nil => intro acc s _; rfl
  | cons y ys ih =>
    intro acc s h
    rw [List.cons_append]
    rw [show scanPairIn d pre post acc (y :: (ys ++ s)) =
        scanPairIn d pre post (y :: acc) (ys ++ s) by
      simp [scanPairIn, h y (by simp)]]
    rw [ih (y :: acc) s fun x hx => h x (by simp [hx])]
    simp

/-- The flag the thoughts scan carries after passing over `ys`. -/
def flagAfter (g : Bool) (ys : List Char) : Bool :=
  ys.foldl (fun _ y => isJsWs y) g

theorem scanThought_copy {ys : List Char} (h : ∀ y ∈ ys, y ≠ '\'') :
    ∀ (g : Bool) (r : List Char),
      scanThought g (ys ++ r) = ys ++ scanThought (flagAfter g ys) r := by
  induction ys with
  | nil => intro g r; rfl
  | cons y ys ih =>
    intro g r
    rw [List.cons_append]
    rw [show scanThought g (y :: (ys ++ r)) =
        y :: scanThought (isJsWs y) (ys ++ r) by
      simp [scanThought, h y (by simp)]]
    rw [ih (fun x hx => h x (by simp [hx])) (isJsWs y) r]
    rfl

theorem scanThoughtIn_no_delim :
    ∀ {s : List Char} (acc : List Char), '\'' ∉ s →
      scanThoughtIn acc s = '\'' :: acc.reverse ++ s := by
  intro s
  induction s with
  | nil => intro acc _; simp [scanThoughtIn]
  | cons c r ih =>
    intro acc h
    have hc : c ≠ '\'' := fun he => h (by simp [he])
    rw [show scanThoughtIn acc (c :: r) = scanThoughtIn (c :: acc) r by
      simp [scanThoughtIn, hc]]
    rw [ih (c :: acc) fun hm => h (by simp [hm])]
    simp

theorem scanThoughtIn_content :
    ∀ {content : List Char} (acc s : List Char), (∀ y ∈ content, y ≠ '\'') →
      scanThoughtIn acc (content ++ s) =
        scanThoughtIn (content.reverse ++ acc) s := by
  intro content
  induction content with
  | nil => intro acc s _; rfl
  | cons y ys ih =>
    intro acc s h
    rw [List.cons_append]
    rw [show scanThoughtIn acc (y :: (ys ++ s)) =
        scanThoughtIn (y :: acc) (ys ++ s) by simp [scanThoughtIn, h y (by simp)]]
    rw [ih (y :: acc) s fun x hx => h x (by simp [hx])]
    simp

/-!
## EWf / HWf are preserved under splitting at a clean delimiter
-/

theorem EWf_split {d : Char} (hd : d ∉ ['&', 'a', 'm', 'p', ';', 'l', 't', 'g']) :
    ∀ {s a b : List Char}, EWf s → splitAtChar d s = some (a, b) → EWf a ∧ EWf b := by
  intro s a b hw h
  induction hw generalizing a b with
  | nil => exact absurd h (by simp [splitAtChar])
  | @raw c r hc1 hc2 hr ih =>
    rw [splitAtChar] at h
    by_cases hc : c = d
    · rw [if_pos hc] at h
      injection h with h
      injection h with h1 h2
      subst h1; subst h2
      exact ⟨EWf.nil, hr⟩
    · rw [if_neg hc] at h
      cases hsr : splitAtChar d r with
      | none => rw [hsr] at h; exact absurd h (by simp)
      | some p =>
        obtain ⟨a2, b2⟩ := p
        rw [hsr] at h
        injection h with h
        injection h with h1 h2
        subst h1; subst h2
        exact ⟨EWf.raw hc1 hc2 (ih hsr).1, (ih hsr).2⟩
  | @amp r hr ih =>
    rw [splitAtChar_append_not_mem (not_mem_of_subset_ne (by decide) hd) r] at h
    cases hsr : splitAtChar d r with
    | none => rw [hsr] at h; exact absurd h (by simp)
    | some p =>
      obtain ⟨a2, b2⟩ := p
      rw [hsr] at h
      simp only [Option.map_some'] at h
      injection h with h
      injection h with h1 h2
      subst h1; subst h2
      exact ⟨EWf.amp (ih hsr).1, (ih hsr).2⟩
  | @ltE r hr ih =>
    rw [splitAtChar_append_not_mem (not_mem_of_subset_ne (by decide) hd) r] at h
    cases hsr : splitAtChar d r with
    | none => rw [hsr] at h; exact absurd h (by simp)
    | some p =>
      obtain ⟨a2, b2⟩ := p
      rw [hsr] at h
      simp only [Option.map_some'] at h
      injection h with h
      injection h with h1 h2
      subst h1; subst h2
      exact ⟨EWf.ltE (ih hsr).1, (ih hsr).2⟩
  | @gtE r hr ih =>
    rw [splitAtChar_append_not_mem (not_mem_of_subset_ne (by decide) hd) r] at h
    cases hsr : splitAtChar d r with
    | none => rw [hsr] at h; exact absurd h (by simp)
    | some p =>
      obtain ⟨a2, b2⟩ := p
      rw [hsr] at h
      simp only [Option.map_some'] at h
      injection h with h
      injection h with h1 h2
      subst h1; subst h2
      exact ⟨EWf.gtE (ih hsr).1, (ih hsr).2⟩

theorem HWf_split {d : Char} (hd : d ∉ ['&', 'a', 'm', 'p', ';', 'l', 't', 'g'])
    (hdt : ∀ t ∈ tagList, ∀ y ∈ t, y ≠ d) :
    ∀ {s a b : List Char}, HWf s → splitAtChar d s = some (a, b) → HWf a ∧ HWf b := by
  intro s a b hw h
  induction hw generalizing a b with
  | nil => exact absurd h (by simp [splitAtChar])
  | @raw c r hc1 hc2 hr ih =>
    rw [splitAtChar] at h
    by_cases hc : c = d
    · rw [if_pos hc] at h
      injection h with h
      injection h with h1 h2
      subst h1; subst h2
      exact ⟨HWf.nil, hr⟩
    · rw [if_neg hc] at h
      cases hsr : splitAtChar d r with
      | none => rw [hsr] at h; exact absurd h (by simp)
      | some p =>
        obtain ⟨a2, b2⟩ := p
        rw [hsr] at h
        injection h with h
        injection h with h1 h2
        subst h1; subst h2
        exact ⟨HWf.raw hc1 hc2 (ih hsr).1, (ih hsr).2⟩
  | @amp r hr ih =>
    rw [splitAtChar_append_not_mem (not_mem_of_subset_ne (by decide) hd) r] at h
    cases hsr : splitAtChar d r with
    | none => rw [hsr] at h; exact absurd h (by simp)
    | some p =>
      obtain ⟨a2, b2⟩ := p
      rw [hsr] at h
      simp only [Option.map_some'] at h
      injection h with h
      injection h with h1 h2
      subst h1; subst h2
      exact ⟨HWf.amp (ih hsr).1, (ih hsr).2⟩
  | @ltE r hr ih =>
    rw [splitAtChar_append_not_mem (not_mem_of_subset_ne (by decide) hd) r] at h
    cases hsr : splitAtChar d r with
    | none => rw [hsr] at h; exact absurd h (by simp)
    | some p =>
      obtain ⟨a2, b2⟩ := p
      rw [hsr] at h
      simp only [Option.map_some'] at h
      injection h with h
      injection h with h1 h2
      subst h1; subst h2
      exact ⟨HWf.ltE (ih hsr).1, (ih hsr).2⟩
  | @gtE r hr ih =>
    rw [splitAtChar_append_not_mem (not_mem_of_subset_ne (by decide) hd) r] at h
    cases hsr : splitAtChar d r with
    | none => rw [hsr] at h; exact absurd h (by simp)
    | some p =>
      obtain ⟨a2, b2⟩ := p
      rw [hsr] at h
      simp only [Option.map_some'] at h
      injection h with h
      injection h with h1 h2
      subst h1; subst h2
      exact ⟨HWf.gtE (ih hsr).1, (ih hsr).2⟩
  | @tag t r ht hr ih =>
    rw [splitAtChar_append_not_mem (hdt t ht) r] at h
    cases hsr : splitAtChar d r with
    | none => rw [hsr] at h; exact absurd h (by simp)
    | some p =>
      obtain ⟨a2, b2⟩ := p
      rw [hsr] at h
      simp only [Option.map_some'] at h
      injection h with h
      injection h with h1 h2
      subst h1; subst h2
      exact ⟨HWf.tag ht (ih hsr).1, (ih hsr).2⟩

/-!
## The quote-retaining replacements preserve the extracted plain text
-/

theorem dialogueReplace_pres :
    ∀ (n : Nat) (s : List Char), s.length ≤ n → EWf s →
      HWf (dialogueReplace s) ∧
        textContentOf (dialogueReplace s) = textContentOf s := by
  intro n
  induction n with
  | zero =>
    intro s hlen hw
    have hs : s = [] := List.length_eq_zero.mp (Nat.le_zero.mp hlen)
    subst hs
    exact ⟨HWf.nil, rfl⟩
  | succ m ih =>
    intro s hlen hw
    cases hw with
    | nil => exact ⟨HWf.nil, rfl⟩
    | @raw c r hc1 hc2 hr =>
      by_cases hcd : c = '"'
      · subst hcd
        rw [show dialogueReplace ('"' :: r) =
            scanPairIn '"' (dlgOpenTag ++ ['"']) ('"' :: closeTag) [] r by
          simp [dialogueReplace, scanPair]]
        cases hsplit : splitAtChar '"' r with
        | none =>
          rw [scanPairIn_no_delim [] (splitAtChar_none hsplit)]
          simp only [List.reverse_nil, List.nil_append]
          exact ⟨(EWf.raw hc1 hc2 hr).toHWf, rfl⟩
        | some p =>
          obtain ⟨content, r2⟩ := p
          obtain ⟨heq, hnot⟩ := splitAtChar_eq hsplit
          by_cases hce : content = []
          · subst hce
            simp only [List.nil_append] at heq
            subst heq
            rw [show scanPairIn '"' (dlgOpenTag ++ ['"']) ('"' :: closeTag) []
                ('"' :: r2) = '"' :: dialogueReplace ('"' :: r2) by
              simp [scanPairIn, dialogueReplace, scanPair]]
            have hr2 : EWf ('"' :: r2) := hr
            have hlen2 : ('"' :: r2).length ≤ m := by
              simp only [List.length_cons] at hlen ⊢
              omega
            obtain ⟨ihw, ihtc⟩ := ih ('"' :: r2) hlen2 hr2
            refine ⟨HWf.raw hc1 hc2 ihw, ?_⟩
            rw [textContentOf_cons _ (by decide) (by decide),
              textContentOf_cons _ (by decide) (by decide), ihtc]
          · subst heq
            have hcontq : ∀ y ∈ content, y ≠ '"' := fun y hy he => hnot (he ▸ hy)
            rw [scanPairIn_content [] ('"' :: r2) hcontq]
            rw [show scanPairIn '"' (dlgOpenTag ++ ['"']) ('"' :: closeTag)
                (content.reverse ++ []) ('"' :: r2) =
                (dlgOpenTag ++ ['"']) ++ (content.reverse ++ []).reverse ++
                  ('"' :: closeTag) ++ dialogueReplace r2 by
              simp [scanPairIn, dialogueReplace, scanPair, hce]]
            obtain ⟨hwc, hwr2⟩ := EWf_split (by decide) hr hsplit
            have hlen2 : r2.length ≤ m := by
              have := congrArg List.length (rfl :
                content ++ '"' :: r2 = content ++ '"' :: r2)
              simp only [List.length_cons, List.length_append] at hlen
              omega
            obtain ⟨ihw, ihtc⟩ := ih r2 hlen2 hwr2
            have hshape :
                (dlgOpenTag ++ ['"']) ++ (content.reverse ++ []).reverse ++
                  ('"' :: closeTag) ++ dialogueReplace r2 =
                dlgOpenTag ++ ('"' :: (content ++
                  ('"' :: (closeTag ++ dialogueReplace r2)))) := by
              simp
            rw [hshape]
            constructor
            · exact HWf.tag (by simp [tagList]) (HWf.raw (by decide) (by decide)
                (HWf.append hwc.toHWf (HWf.raw (by decide) (by decide)
                  (HWf.tag (by simp [tagList]) ihw))))
            · rw [textContentOf_tag _ (by simp [tagList]),
                textContentOf_cons _ (by decide) (by decide),
                textContentOf_append _ hwc.toHWf,
                textContentOf_cons _ (by decide) (by decide),
                textContentOf_tag _ (by simp [tagList]), ihtc,
                textContentOf_cons _ (by decide) (by decide),
                textContentOf_append _ hwc.toHWf,
                textContentOf_cons _ (by decide) (by decide)]
      · rw [show dialogueReplace (c :: r) = c :: dialogueReplace r by
          simp [dialogueReplace, scanPair, hcd]]
        have hlen2 : r.length ≤ m := by
          simp only [List.length_cons] at hlen
          omega
        obtain ⟨ihw, ihtc⟩ := ih r hlen2 hr
        exact ⟨HWf.raw hc1 hc2 ihw, by
          rw [textContentOf_cons _ hc1 hc2, textContentOf_cons _ hc1 hc2, ihtc]⟩
    | @amp r hr =>
      rw [show dialogueReplace ("&amp;".data ++ r) =
          "&amp;".data ++ dialogueReplace r from
        scanPair_copy (by decide) r]
      have hlen2 : r.length ≤ m := by
        simp only [List.length_append] at hlen
        simp only [List.length, String.data] at hlen ⊢
        omega
      obtain ⟨ihw, ihtc⟩ := ih r hlen2 hr
      exact ⟨HWf.amp ihw, by rw [textContentOf_amp, textContentOf_amp, ihtc]⟩
    | @ltE r hr =>
      rw [show dialogueReplace ("&lt;".data ++ r) =
          "&lt;".data ++ dialogueReplace r from
        scanPair_copy (by decide) r]
      have hlen2 : r.length ≤ m := by
        simp only [List.length_append] at hlen
        simp only [List.length, String.data] at hlen ⊢
        omega
      obtain ⟨ihw, ihtc⟩ := ih r hlen2 hr
      exact ⟨HWf.ltE ihw, by rw [textContentOf_lt, textContentOf_lt, ihtc]⟩
    | @gtE r hr =>
      rw [show dialogueReplace ("&gt;".data ++ r) =
          "&gt;".data ++ dialogueReplace r from
        scanPair_copy (by decide) r]
      have hlen2 : r.length ≤ m := by
        simp only [List.length_append] at hlen
        simp only [List.length, String.data] at hlen ⊢
        omega
      obtain ⟨ihw, ihtc⟩ := ih r hlen2 hr
      exact ⟨HWf.gtE ihw, by rw [textContentOf_gt, textContentOf_gt, ihtc]⟩

theorem HWf_cons_inv :
    ∀ {s : List Char}, HWf s → ∀ {c : Char} {r : List Char},
      s = c :: r → c ≠ '&' → c ≠ '<' → HWf r := by
  intro s h
  induction h with
  | nil => intro c r he _ _; exact absurd he (by simp)
  | raw _ _ hr _ =>
    intro c r he _ _
    injection he with h1 h2
    subst h2
    exact hr
  | amp hr _ =>
    intro c r he hc1 _
    rw [show ("&amp;".data : List Char) = '&' :: "amp;".data from rfl] at he
    injection he with h1 h2
    exact absurd h1.symm hc1
  | ltE hr _ =>
    intro c r he hc1 _
    rw [show ("&lt;".data : List Char) = '&' :: "lt;".data from rfl] at he
    injection he with h1 h2
    exact absurd h1.symm hc1
  | gtE hr _ =>
    intro c r he hc1 _
    rw [show ("&gt;".data : List Char) = '&' :: "gt;".data from rfl] at he
    injection he with h1 h2
    exact absurd h1.symm hc1
  | @tag t r2 ht hr _ =>
    intro c r he _ hc2
    revert ht
    simp only [tagList, List.mem_cons, List.not_mem_nil, or_false]
    intro ht
    rcases ht with h4 | h4 | h4 | h4 <;> subst h4 <;>
      · injection he with h1 h2
        exact absurd h1.symm hc2

theorem flagAfter_amp (g : Bool) : flagAfter g "&amp;".data = false := rfl

theorem flagAfter_lt (g : Bool) : flagAfter g "&lt;".data = false := rfl

theorem flagAfter_gt (g : Bool) : flagAfter g "&gt;".data = false := rfl

theorem scanThought_pres :
    ∀ (n : Nat) (g : Bool) (s : List Char), s.length ≤ n → HWf s →
      HWf (scanThought g s) ∧
        textContentOf (scanThought g s) = textContentOf s := by
  intro n
  induction n with
  | zero =>
    intro g s hlen hw
    have hs : s = [] := List.length_eq_zero.mp (Nat.le_zero.mp hlen)
    subst hs
    exact ⟨HWf.nil, rfl⟩
  | succ m ih =>
    intro g s hlen hw
    cases hw with
    | nil => exact ⟨HWf.nil, rfl⟩
    | @raw c r hc1 hc2 hr =>
      have hlenr : r.length ≤ m := by
        simp only [List.length_cons] at hlen
        omega
      by_cases hcq : c = '\''
      · subst hcq
        cases g with
        | false =>
          rw [show scanThought false ('\'' :: r) =
              '\'' :: scanThought false r by simp [scanThought, isJsWs]]
          obtain ⟨ihw, ihtc⟩ := ih false r hlenr hr
          exact ⟨HWf.raw hc1 hc2 ihw, by
            rw [textContentOf_cons _ hc1 hc2, textContentOf_cons _ hc1 hc2, ihtc]⟩
        | true =>
          rw [show scanThought true ('\'' :: r) = scanThoughtIn [] r by
            simp [scanThought]]
          cases hsplit : splitAtChar '\'' r with
          | none =>
            rw [scanThoughtIn_no_delim [] (splitAtChar_none hsplit)]
            simp only [List.reverse_nil, List.nil_append]
            exact ⟨(HWf.raw hc1 hc2 hr), rfl⟩
          | some p =>
            obtain ⟨content, r2⟩ := p
            obtain ⟨heq, hnot⟩ := splitAtChar_eq hsplit
            by_cases hce : content = []
            · subst hce
              simp only [List.nil_append] at heq
              subst heq
              rw [show scanThoughtIn [] ('\'' :: r2) =
                  '\'' :: '\'' :: scanThought false r2 by simp [scanThoughtIn]]
              have hr2 : HWf r2 := HWf_cons_inv hr rfl (by decide) (by decide)
              have hlen2 : r2.length ≤ m := by
                simp only [List.length_cons] at hlenr
                omega
              obtain ⟨ihw, ihtc⟩ := ih false r2 hlen2 hr2
              refine ⟨HWf.raw hc1 hc2 (HWf.raw hc1 hc2 ihw), ?_⟩
              rw [textContentOf_cons _ (by decide) (by decide),
                textContentOf_cons _ (by decide) (by decide),
                textContentOf_cons _ (by decide) (by decide),
                textContentOf_cons _ (by decide) (by decide), ihtc]
            · subst heq
              have hcontq : ∀ y ∈ content, y ≠ '\'' := fun y hy he => hnot (he ▸ hy)
              rw [scanThoughtIn_content [] ('\'' :: r2) hcontq]
              rw [show scanThoughtIn (content.reverse ++ []) ('\'' :: r2) =
                  thOpenTag ++ '\'' :: (content.reverse ++ []).reverse ++
                    '\'' :: closeTag ++ scanThought false r2 by
                simp [scanThoughtIn, hce]]
              obtain ⟨hwc, hwr2⟩ := HWf_split (by decide) (by decide) hr hsplit
              have hlen2 : r2.length ≤ m := by
                simp only [List.length_append, List.length_cons] at hlenr
                omega
              obtain ⟨ihw, ihtc⟩ := ih false r2 hlen2 hwr2
              have hshape :
                  thOpenTag ++ '\'' :: (content.reverse ++ []).reverse ++
                    '\'' :: closeTag ++ scanThought false r2 =
                  thOpenTag ++ ('\'' :: (content ++
                    ('\'' :: (closeTag ++ scanThought false r2)))) := by
                simp
              rw [hshape]
              constructor
              · exact HWf.tag (by simp [tagList]) (HWf.raw (by decide) (by decide)
                  (HWf.append hwc (HWf.raw (by decide) (by decide)
                    (HWf.tag (by simp [tagList]) ihw))))
              · rw [textContentOf_tag _ (by simp [tagList]),
                  textContentOf_cons _ (by decide) (by decide),
                  textContentOf_append _ hwc,
                  textContentOf_cons _ (by decide) (by decide),
                  textContentOf_tag _ (by simp [tagList]), ihtc,
                  textContentOf_cons _ (by decide) (by decide),
                  textContentOf_append _ hwc,
                  textContentOf_cons _ (by decide) (by decide)]
      · rw [show scanThought g (c :: r) = c :: scanThought (isJsWs c) r by
          simp [scanThought, hcq]]
        obtain ⟨ihw, ihtc⟩ := ih (isJsWs c) r hlenr hr
        exact ⟨HWf.raw hc1 hc2 ihw, by
          rw [textContentOf_cons _ hc1 hc2, textContentOf_cons _ hc1 hc2, ihtc]⟩
    | @amp r hr =>
      rw [scanThought_copy (by decide) g r, flagAfter_amp]
      have hlen2 : r.length ≤ m := by
        simp only [List.length_append] at hlen
        simp only [List.length, String.data] at hlen ⊢
        omega
      obtain ⟨ihw, ihtc⟩ := ih false r hlen2 hr
      exact ⟨HWf.amp ihw, by rw [textContentOf_amp, textContentOf_amp, ihtc]⟩
    | @ltE r hr =>
      rw [scanThought_copy (by decide) g r, flagAfter_lt]
      have hlen2 : r.length ≤ m := by
        simp only [List.length_append] at hlen
        simp only [List.length, String.data] at hlen ⊢
        omega
      obtain ⟨ihw, ihtc⟩ := ih false r hlen2 hr
      exact ⟨HWf.ltE ihw, by rw [textContentOf_lt, textContentOf_lt, ihtc]⟩
    | @gtE r hr =>
      rw [scanThought_copy (by decide) g r, flagAfter_gt]
      have hlen2 : r.length ≤ m := by
        simp only [List.length_append] at hlen
        simp only [List.length, String.data] at hlen ⊢
        omega
      obtain ⟨ihw, ihtc⟩ := ih false r hlen2 hr
      exact ⟨HWf.gtE ihw, by rw [textContentOf_gt, textContentOf_gt, ihtc]⟩
    | @tag t r ht hr =>
      have hlen2 : r.length ≤ m := by
        have htpos : 0 < t.length := by
          revert ht
          simp only [tagList, List.mem_cons, List.not_mem_nil, or_false]
          intro ht
          rcases ht with h4 | h4 | h4 | h4 <;> subst h4 <;> decide
        simp only [List.length_append] at hlen
        omega
      obtain ⟨ihw, ihtc⟩ := ih false r hlen2 hr
      have hcopy : scanThought g (t ++ r) = t ++ scanThought false r := by
        revert ht
        simp only [tagList, List.mem_cons, List.not_mem_nil, or_false]
        intro ht
        rcases ht with h4 | h4 | h4 | h4 <;> subst h4 <;>
          rw [scanThought_copy (by decide) g r] <;> rfl
      rw [hcopy]
      refine ⟨HWf.tag ht ihw, ?_⟩
      rw [textContentOf_tag _ ht, textContentOf_tag _ ht, ihtc]

/-!
## The escaping stage
-/

theorem escapeHtml_EWf (t : List Char) : EWf (escapeHtml t) := by
  induction t with
  | nil => exact EWf.nil
  | cons c r ih =>
    show EWf (escapeChar c ++ escapeHtml r)
    unfold escapeChar
    by_cases h1 : c = '&'
    · rw [if_pos h1]; exact EWf.amp ih
    · rw [if_neg h1]
      by_cases h2 : c = '<'
      · rw [if_pos h2]; exact EWf.ltE ih
      · rw [if_neg h2]
        by_cases h3 : c = '>'
        · rw [if_pos h3]; exact EWf.gtE ih
        · rw [if_neg h3]; exact EWf.raw h1 h2 ih

theorem escapeHtml_tc (t : List Char) : textContentOf (escapeHtml t) = t := by
  induction t with
  | nil => rfl
  | cons c r ih =>
    show textContentOf (escapeChar c ++ escapeHtml r) = c :: r
    unfold escapeChar
    by_cases h1 : c = '&'
    · rw [if_pos h1, textContentOf_amp, ih, h1]
    · rw [if_neg h1]
      by_cases h2 : c = '<'
      · rw [if_pos h2, textContentOf_lt, ih, h2]
      · rw [if_neg h2]
        by_cases h3 : c = '>'
        · rw [if_pos h3, textContentOf_gt, ih, h3]
        · rw [if_neg h3]
          show textContentOf (c :: escapeHtml r) = c :: r
          rw [textContentOf_cons _ h1 h2, ih]

/-- The plain-text round trip of the quote-retaining stages: extracting
the plain text of the escaped-then-dialogue-then-thoughts–formatted
document recovers the input exactly, for every input. -/
theorem realtime005_roundtrip_core (t : List Char) :
    textContentOf (scanThought true (dialogueReplace (escapeHtml t))) = t := by
  obtain ⟨hw1, htc1⟩ :=
    dialogueReplace_pres (escapeHtml t).length (escapeHtml t) le_rfl (escapeHtml_EWf t)
  obtain ⟨_, htc2⟩ :=
    scanThought_pres (dialogueReplace (escapeHtml t)).length true
      (dialogueReplace (escapeHtml t)) le_rfl hw1
  rw [htc2, htc1, escapeHtml_tc]

/-!
## Identity and character-membership lemmas for the scanners
-/

theorem scanPair_id_of_not_mem {d : Char} {pre post : List Char} :
    ∀ {s : List Char}, d ∉ s → scanPair d pre post s = s := by
  intro s
  induction s with
  | nil => intro _; rfl
  | cons c r ih =>
    intro h
    have hc : c ≠ d := fun he => h (by simp [he])
    rw [show scanPair d pre post (c :: r) = c :: scanPair d pre post r by
      simp [scanPair, hc]]
    rw [ih fun hm => h (by simp [hm])]

theorem scanPair_mem {d : Char} {pre post : List Char} {x : Char} (hxd : x ≠ d)
    (hpre : x ∉ pre) (hpost : x ∉ post) :
    ∀ (s : List Char), x ∉ s →
      (x ∉ scanPair d pre post s ∧
        ∀ acc, x ∉ acc → x ∉ scanPairIn d pre post acc s) := by
  intro s
  induction s with
  | nil =>
    intro _
    refine ⟨by simp [scanPair], fun acc hacc => ?_⟩
    simp only [scanPairIn, List.mem_cons, List.mem_reverse]
    rintro (h | h)
    · exact hxd h
    · exact hacc (by simpa using h)
  | cons c r ih =>
    intro h
    have hxc : x ≠ c := fun he => h (by simp [he])
    have hxr : x ∉ r := fun hm => h (by simp [hm])
    obtain ⟨ihOut, ihIn⟩ := ih hxr
    constructor
    · by_cases hc : c = d
      · subst hc
        rw [show scanPair c pre post (c :: r) = scanPairIn c pre post [] r by
          simp [scanPair]]
        exact ihIn [] (by simp)
      · rw [show scanPair d pre post (c :: r) = c :: scanPair d pre post r by
          simp [scanPair, hc]]
        simp only [List.mem_cons]
        rintro (he | hm)
        · exact hxc he
        · exact ihOut hm
    · intro acc hacc
      by_cases hc : c = d
      · subst hc
        by_cases hae : acc = []
        · subst hae
          rw [show scanPairIn c pre post [] (c :: r) =
              c :: scanPairIn c pre post [] r by simp [scanPairIn]]
          simp only [List.mem_cons]
          rintro (he | hm)
          · exact hxc he
          · exact ihIn [] (by simp) hm
        · rw [show scanPairIn c pre post acc (c :: r) =
              pre ++ acc.reverse ++ post ++ scanPair c pre post r by
            simp [scanPairIn, hae]]
          simp only [List.mem_append, List.mem_reverse]
          rintro (((hm | hm) | hm) | hm)
          · exact hpre hm
          · exact hacc hm
          · exact hpost hm
          · exact ihOut hm
      · rw [show scanPairIn d pre post acc (c :: r) =
            scanPairIn d pre post (c :: acc) r by simp [scanPairIn, hc]]
        refine ihIn (c :: acc) ?_
        simp only [List.mem_cons]
        rintro (he | hm)
        · exact hxc he
        · exact hacc hm

theorem scanThought_mem {x : Char} (hxq : x ≠ '\'') (hpre : x ∉ thOpenTag)
    (hpost : x ∉ closeTag) :
    ∀ (s : List Char), x ∉ s →
      ((∀ g, x ∉ scanThought g s) ∧
        ∀ acc, x ∉ acc → x ∉ scanThoughtIn acc s) := by
  intro s
  induction s with
  | nil =>
    intro _
    refine ⟨fun g => by simp [scanThought], fun acc hacc => ?_⟩
    simp only [scanThoughtIn, List.mem_cons, List.mem_reverse]
    rintro (h | h)
    · exact hxq h
    · exact hacc (by simpa using h)
  | cons c r ih =>
    intro h
    have hxc : x ≠ c := fun he => h (by simp [he])
    have hxr : x ∉ r := fun hm => h (by simp [hm])
    obtain ⟨ihOut, ihIn⟩ := ih hxr
    constructor
    · intro g
      by_cases hcg : c = '\'' ∧ g = true
      · obtain ⟨hc, hg⟩ := hcg
        subst hc; subst hg
        rw [show scanThought true ('\'' :: r) = scanThoughtIn [] r by
          simp [scanThought]]
        exact ihIn [] (by simp)
      · have : scanThought g (c :: r) = c :: scanThought (isJsWs c) r := by
          rcases not_and_or.mp hcg with hc | hg
          · simp [scanThought, hc]
          · have hg' : g = false := by
              cases g
              · rfl
              · exact absurd rfl hg
            subst hg'
            simp [scanThought]
        rw [this]
        simp only [List.mem_cons]
        rintro (he | hm)
        · exact hxc he
        · exact ihOut (isJsWs c) hm
    · intro acc hacc
      by_cases hc : c = '\''
      · subst hc
        by_cases hae : acc = []
        · subst hae
          rw [show scanThoughtIn [] ('\'' :: r) =
              '\'' :: '\'' :: scanThought false r by simp [scanThoughtIn]]
          simp only [List.mem_cons]
          rintro (he | he | hm)
          · exact hxq he
          · exact hxq he
          · exact ihOut false hm
        · rw [show scanThoughtIn acc ('\'' :: r) =
              thOpenTag ++ '\'' :: acc.reverse ++ '\'' :: closeTag ++
                scanThought false r by simp [scanThoughtIn, hae]]
          simp only [List.mem_append, List.mem_cons, List.mem_reverse]
          rintro (((hm | hm | hm) | hm | hm) | hm)
          · exact hpre hm
          · exact hxq hm
          · exact hacc hm
          · exact hxq hm
          · exact hpost hm
          · exact ihOut false hm
      · rw [show scanThoughtIn acc (c :: r) = scanThoughtIn (c :: acc) r by
          simp [scanThoughtIn, hc]]
        refine ihIn (c :: acc) ?_
        simp only [List.mem_cons]
        rintro (he | hm)
        · exact hxc he
        · exact hacc hm

theorem escapeHtml_not_mem {x : Char}
    (hx : x ∉ ['&', 'a', 'm', 'p', ';', 'l', 't', 'g']) :
    ∀ {t : List Char}, x ∉ t → x ∉ escapeHtml t := by
  intro t
  induction t with
  | nil => intro _; simp [escapeHtml]
  | cons c r ih =>
    intro h
    have hxc : x ≠ c := fun he => h (by simp [he])
    have hxr : x ∉ r := fun hm => h (by simp [hm])
    show x ∉ escapeChar c ++ escapeHtml r
    simp only [List.mem_append]
    rintro (hm | hm)
    · revert hm
      unfold escapeChar
      by_cases h1 : c = '&'
      · rw [if_pos h1]
        intro hm
        rcases (by simpa using hm :
            x = '&' ∨ x = 'a' ∨ x = 'm' ∨ x = 'p' ∨ x = ';') with
          h | h | h | h | h <;> exact hx (by simp [h])
      · rw [if_neg h1]
        by_cases h2 : c = '<'
        · rw [if_pos h2]
          intro hm
          rcases (by simpa using hm : x = '&' ∨ x = 'l' ∨ x = 't' ∨ x = ';') with
            h | h | h | h <;> exact hx (by simp [h])
        · rw [if_neg h2]
          by_cases h3 : c = '>'
          · rw [if_pos h3]
            intro hm
            rcases (by simpa using hm : x = '&' ∨ x = 'g' ∨ x = 't' ∨ x = ';') with
              h | h | h | h <;> exact hx (by simp [h])
          · rw [if_neg h3]
            intro hm
            exact hxc (by simpa using hm)
    · exact ih hxr hm

/-!
## The part_004 entity-delimited patterns never match escaped text
-/

theorem scanQuotEnt_cons_ne {c : Char} (r : List Char) (h : c ≠ '&') :
    scanQuotEnt (c :: r) = c :: scanQuotEnt r := by
  simp [scanQuotEnt, h]

theorem scanAposEnt_cons_ne {c : Char} (r : List Char) (h : c ≠ '&') :
    scanAposEnt (c :: r) = c :: scanAposEnt r := by
  simp [scanAposEnt, h]

theorem scanQuotEnt_id : ∀ {s : List Char}, EWf s → scanQuotEnt s = s := by
  intro s hw
  induction hw with
  | nil => rfl
  | @raw c r hc1 _ _ ih => rw [scanQuotEnt_cons_ne r hc1, ih]
  | @amp r _ ih =>
    show scanQuotEnt ('&' :: 'a' :: 'm' :: 'p' :: ';' :: r) = _
    rw [show scanQuotEnt ('&' :: 'a' :: 'm' :: 'p' :: ';' :: r) =
        '&' :: scanQuotEnt ('a' :: 'm' :: 'p' :: ';' :: r) from rfl,
      scanQuotEnt_cons_ne _ (by decide), scanQuotEnt_cons_ne _ (by decide),
      scanQuotEnt_cons_ne _ (by decide), scanQuotEnt_cons_ne _ (by decide), ih]
    rfl
  | @ltE r _ ih =>
    show scanQuotEnt ('&' :: 'l' :: 't' :: ';' :: r) = _
    rw [show scanQuotEnt ('&' :: 'l' :: 't' :: ';' :: r) =
        '&' :: scanQuotEnt ('l' :: 't' :: ';' :: r) from rfl,
      scanQuotEnt_cons_ne _ (by decide), scanQuotEnt_cons_ne _ (by decide),
      scanQuotEnt_cons_ne _ (by decide), ih]
    rfl
  | @gtE r _ ih =>
    show scanQuotEnt ('&' :: 'g' :: 't' :: ';' :: r) = _
    rw [show scanQuotEnt ('&' :: 'g' :: 't' :: ';' :: r) =
        '&' :: scanQuotEnt ('g' :: 't' :: ';' :: r) from rfl,
      scanQuotEnt_cons_ne _ (by decide), scanQuotEnt_cons_ne _ (by decide),
      scanQuotEnt_cons_ne _ (by decide), ih]
    rfl

theorem scanAposEnt_id : ∀ {s : List Char}, EWf s → scanAposEnt s = s := by
  intro s hw
  induction hw with
  | nil => rfl
  | @raw c r hc1 _ _ ih => rw [scanAposEnt_cons_ne r hc1, ih]
  | @amp r _ ih =>
    show scanAposEnt ('&' :: 'a' :: 'm' :: 'p' :: ';' :: r) = _
    rw [show scanAposEnt ('&' :: 'a' :: 'm' :: 'p' :: ';' :: r) =
        '&' :: scanAposEnt ('a' :: 'm' :: 'p' :: ';' :: r) from rfl,
      scanAposEnt_cons_ne _ (by decide), scanAposEnt_cons_ne _ (by decide),
      scanAposEnt_cons_ne _ (by decide), scanAposEnt_cons_ne _ (by decide), ih]
    rfl
  | @ltE r _ ih =>
    show scanAposEnt ('&' :: 'l' :: 't' :: ';' :: r) = _
    rw [show scanAposEnt ('&' :: 'l' :: 't' :: ';' :: r) =
        '&' :: scanAposEnt ('l' :: 't' :: ';' :: r) from rfl,
      scanAposEnt_cons_ne _ (by decide), scanAposEnt_cons_ne _ (by decide),
      scanAposEnt_cons_ne _ (by decide), ih]
    rfl
  | @gtE r _ ih =>
    show scanAposEnt ('&' :: 'g' :: 't' :: ';' :: r) = _
    rw [show scanAposEnt ('&' :: 'g' :: 't' :: ';' :: r) =
        '&' :: scanAposEnt ('g' :: 't' :: ';' :: r) from rfl,
      scanAposEnt_cons_ne _ (by decide), scanAposEnt_cons_ne _ (by decide),
      scanAposEnt_cons_ne _ (by decide), ih]
    rfl

/-!
## Claims C2 and C4
-/

/-- Counterexample to claim C2: the plain text `*hi*` has balanced
markup delimiters and contains an emphasis run, yet extracting plain
text from the realtime-rendered output yields `hi`, not the original
text — the emphasis replacement drops the asterisk delimiters. -/
theorem realtime_roundtrip_counterexample :
    textContentOf (applyRealtimeFormatting005 "*hi*".data) = "hi".data ∧
      textContentOf (applyRealtimeFormatting005 "*hi*".data) ≠ "*hi*".data := by
  decide

/-- Claim C2 (amended): for every plain text on which the emphasis
pattern finds no match in the rendered text, extracting the plain text
of the rendered output returns the original text exactly — in the
part_005 realtime formatter and in the part_004 realtime formatter
(whose entity-delimited dialogue/thought patterns never match).  Texts
containing a matched emphasis run are excluded: there the asterisk
delimiters are dropped from the extraction. -/
theorem realtime_roundtrip (t : List Char)
    (h5 : emphasisReplace (scanThought true (dialogueReplace (escapeHtml t))) =
      scanThought true (dialogueReplace (escapeHtml t)))
    (h4 : emphasisReplace (escapeHtml t) = escapeHtml t) :
    textContentOf (applyRealtimeFormatting005 t) = t ∧
      textContentOf (applyRealtimeFormatting004 t) = t := by
  constructor
  · show textContentOf (emphasisReplace (scanThought true
      (dialogueReplace (escapeHtml t)))) = t
    rw [h5]
    exact realtime005_roundtrip_core t
  · show textContentOf (emphasisReplace (scanAposEnt
      (scanQuotEnt (escapeHtml t)))) = t
    rw [scanQuotEnt_id (escapeHtml_EWf t), scanAposEnt_id (escapeHtml_EWf t),
      h4, escapeHtml_tc]

theorem realtime_roundtrip_witness :
    textContentOf (applyRealtimeFormatting005 "hello \"world\"".data) =
        "hello \"world\"".data ∧
      textContentOf (applyRealtimeFormatting004 "hello \"world\"".data) =
        "hello \"world\"".data :=
  realtime_roundtrip "hello \"world\"".data (by decide) (by decide)

/-- The thought-versus-contraction example of the claim. -/
def c4Input : List Char :=
  "He said don".data ++ '\'' :: "t go. ".data ++ '\'' :: "Never,".data ++
    '\'' :: " she whispered.".data

/-- What the part_005 realtime formatter renders for `c4Input`: the
contraction stays plain and the quoted run is wrapped as a thought
span. -/
def c4Expected005 : List Char :=
  "He said don".data ++ '\'' :: "t go. ".data ++ thOpenTag ++
    '\'' :: "Never,".data ++ '\'' :: closeTag ++ " she whispered.".data

/-- Counterexample to claim C4: in the part_004 realtime formatter the
claim's example is rendered completely unchanged — no span of any kind
is produced (the output contains no `<`), so the quoted run is NOT
wrapped as a thought span in every formatter variant. -/
theorem thought_guard_counterexample :
    applyRealtimeFormatting004 c4Input = c4Input ∧
      '<' ∉ applyRealtimeFormatting004 c4Input ∧
      applyRealtimeFormatting005 c4Input ≠ applyRealtimeFormatting004 c4Input := by
  refine ⟨by decide, by decide, by decide⟩

/-- Claim C4 (amended): in the part_005 realtime formatter a
single-quoted run becomes a thought span only when the opening quote is
at the start of the text or preceded by whitespace — a quote scanned
with the guard flag down stays plain, a guarded quote with a non-empty
closed run is wrapped with no restriction on the closer, and the flag is
refreshed from each scanned character; on the claim's example the
contraction stays plain and the quoted run is wrapped.  In the part_004
realtime variant the dialogue/thought patterns match entity text that
its escaping never produces, so it renders every text with no dialogue
or thought span at all (only the emphasis replacement acts), and the
example is rendered unchanged. -/
theorem thought_guard (mid rest : List Char) (c : Char) (r : List Char)
    (g : Bool) (hmid : mid ≠ []) (hmidq : '\'' ∉ mid) (hc : c ≠ '\'') :
    (scanThought false ('\'' :: r) = '\'' :: scanThought false r) ∧
      (scanThought true ('\'' :: (mid ++ '\'' :: rest)) =
        thOpenTag ++ '\'' :: (mid ++ '\'' :: (closeTag ++
          scanThought false rest))) ∧
      (scanThought g (c :: r) = c :: scanThought (isJsWs c) r) ∧
      applyRealtimeFormatting005 c4Input = c4Expected005 ∧
      (∀ t, applyRealtimeFormatting004 t = emphasisReplace (escapeHtml t)) ∧
      applyRealtimeFormatting004 c4Input = c4Input := by
  refine ⟨?_, ?_, ?_, ?_, ?_, ?_⟩
  · simp [scanThought, isJsWs]
  · rw [show scanThought true ('\'' :: (mid ++ '\'' :: rest)) =
        scanThoughtIn [] (mid ++ '\'' :: rest) by simp [scanThought]]
    rw [scanThoughtIn_content [] ('\'' :: rest)
      (fun y hy he => hmidq (he ▸ hy))]
    rw [show scanThoughtIn (mid.reverse ++ []) ('\'' :: rest) =
        thOpenTag ++ '\'' :: (mid.reverse ++ []).reverse ++
          '\'' :: closeTag ++ scanThought false rest by
      simp [scanThoughtIn, hmid]]
    simp
  · simp [scanThought, hc]
  · decide
  · intro t
    show emphasisReplace (scanAposEnt (scanQuotEnt (escapeHtml t))) = _
    rw [scanQuotEnt_id (escapeHtml_EWf t), scanAposEnt_id (escapeHtml_EWf t)]
  · decide

theorem thought_guard_witness :
    (scanThought false ('\'' :: "ok".data) =
        '\'' :: scanThought false "ok".data) ∧
      (scanThought true ('\'' :: ("Never,".data ++ '\'' :: " x".data)) =
        thOpenTag ++ '\'' :: ("Never,".data ++ '\'' :: (closeTag ++
          scanThought false " x".data))) ∧
      (scanThought true ('n' :: "ok".data) =
        'n' :: scanThought (isJsWs 'n') "ok".data) ∧
      applyRealtimeFormatting005 c4Input = c4Expected005 ∧
      (∀ t, applyRealtimeFormatting004 t = emphasisReplace (escapeHtml t)) ∧
      applyRealtimeFormatting004 c4Input = c4Input :=
  thought_guard "Never,".data " x".data 'n' "ok".data true
    (by decide) (by decide) (by decide)

/-!
## Preview formatter (src/js/formatter.js lines 41-81)
-/

/-- Prepends a character to the first piece of a piece list. -/
def consFirst (c : Char) : List (List Char) → List (List Char)
  | [] => [[c]]
  | p :: ps => (c :: p) :: ps

/-!
`text.split(/\n\n+/)` (src/js/formatter.js line 45): pieces are
delimited by maximal runs of two or more newlines; a single newline
stays inside a piece.  `splitParasSkip` consumes the remainder of a
separator run.
-/

mutual

def splitParas : List Char → List (List Char)
  | [] => [[]]
  | '\n' :: '\n' :: r2 => [] :: splitParasSkip r2
  | c :: r => consFirst c (splitParas r)

def splitParasSkip : List Char → List (List Char)
  | [] => [[]]
  | '\n' :: r => splitParasSkip r
  | c :: r => consFirst c (splitParas r)

end

/-!
`escapeHtml` of src/js/formatter.js lines 88-95 maps `&`, `<` and `>`
to character references and nothing else — the same three-entry map as
the realtime serialisation, so the model reuses `escapeChar` and
`escapeHtml`.  The replacement templates of `formatText` (lines 54-68)
keep the matched delimiters literally and escape only the captured
content; they are parameterised by the configured colours.
-/

def ftDlgPre (col : List Char) : List Char :=
  "<span class=\"dialogue\" style=\"color: ".data ++ col ++ "\">\"".data

def ftDlgPost : List Char := "\"</span>".data

def ftThPre (col : List Char) : List Char :=
  "<span class=\"thoughts\" style=\"color: ".data ++ col ++ "\">".data ++ ['\'']

def ftThPost : List Char := '\'' :: "</span>".data

def ftEmPre (col : List Char) : List Char :=
  "<span class=\"emphasis\" style=\"color: ".data ++ col ++ "\">".data

def ftEmPost : List Char := "</span>".data

/-!
The replacements of `formatText` (src/js/formatter.js lines 54-69) run
on the raw paragraph and escape the captured content inside the
template: `d([^d]+)d` becomes `pre ++ escapeHtml content ++ post`.  The
scan is the one `scanPair` performs — only the emitted replacement
differs.
-/

mutual

def scanPairEsc (d : Char) (pre post : List Char) : List Char → List Char
  | [] => []
  | c :: r =>
    if c = d then scanPairEscIn d pre post [] r
    else c :: scanPairEsc d pre post r

def scanPairEscIn (d : Char) (pre post : List Char) (acc : List Char) :
    List Char → List Char
  | [] => d :: acc.reverse
  | c :: r =>
    if c = d then
      if acc = [] then d :: scanPairEscIn d pre post [] r
      else pre ++ escapeHtml acc.reverse ++ post ++ scanPairEsc d pre post r
    else scanPairEscIn d pre post (c :: acc) r

end

/-!
The final pass of `formatText` (src/js/formatter.js lines 72-75)
replaces `(<span class="(?:dialogue|thoughts|emphasis)"[^>]*>.*?<\/span>)|([^<]+)`
globally: a produced span is kept as is, any other run of characters
without `<` is escaped, and a `<` that starts no span is left verbatim
(neither alternative can match there, so the scan moves one character
on).  Escaping a maximal `[^<]+` run equals escaping it character by
character, since `escapeHtml` maps each character independently.
-/

/-- Strips a literal pattern from the front, returning the rest. -/
def stripPatternL : List Char → List Char → Option (List Char)
  | [], s => some s
  | _ :: _, [] => none
  | p :: ps, c :: s => if c = p then stripPatternL ps s else none

/-- `[^>]*>`: the characters up to and including the first `>`. -/
def takeToGt : List Char → Option (List Char × List Char)
  | [] => none
  | c :: r =>
    if c = '>' then some (['>'], r)
    else
      match takeToGt r with
      | some (tk, rest) => some (c :: tk, rest)
      | none => none

/-- Lazy `.*?<\/span>`: the shortest run of characters the regex dot
accepts (anything but a line terminator) up to a following `</span>`,
the close tag included. -/
def takeToClose : List Char → Option (List Char × List Char)
  | '<' :: '/' :: 's' :: 'p' :: 'a' :: 'n' :: '>' :: r => some ("</span>".data, r)
  | [] => none
  | c :: r =>
    if c = '\n' || c = '\r' || c.val = 0x2028 || c.val = 0x2029 then none
    else
      match takeToClose r with
      | some (tk, rest) => some (c :: tk, rest)
      | none => none

/-- `(?:dialogue|thoughts|emphasis)"`: one of the three class words and
the closing quote of the attribute. -/
def matchClassWord (s : List Char) : Option (List Char × List Char) :=
  match stripPatternL ("dialogue".data ++ ['"']) s with
  | some rest => some ("dialogue".data ++ ['"'], rest)
  | none =>
    match stripPatternL ("thoughts".data ++ ['"']) s with
    | some rest => some ("thoughts".data ++ ['"'], rest)
    | none =>
      match stripPatternL ("emphasis".data ++ ['"']) s with
      | some rest => some ("emphasis".data ++ ['"'], rest)
      | none => none

/-- The span alternative
`<span class="(?:dialogue|thoughts|emphasis)"[^>]*>.*?<\/span>` tried
at the current position: the matched text and the rest on success. -/
def matchSpanTag (s : List Char) : Option (List Char × List Char) :=
  match stripPatternL "<span class=\"".data s with
  | none => none
  | some r1 =>
    match matchClassWord r1 with
    | none => none
    | some (w, r2) =>
      match takeToGt r2 with
      | none => none
      | some (g, r3) =>
        match takeToClose r3 with
        | none => none
        | some (b, r4) => some ("<span class=\"".data ++ w ++ g ++ b, r4)

/-- The global scan of the final pass, with fuel: every step consumes
at least one character, so fuel equal to the input length never runs
out. -/
def finalEscapeF : Nat → List Char → List Char
  | 0, s => s
  | _ + 1, [] => []
  | n + 1, c :: r =>
    match matchSpanTag (c :: r) with
    | some (sp, rest) => sp ++ finalEscapeF n rest
    | none =>
      if c = '<' then c :: finalEscapeF n r
      else escapeChar c ++ finalEscapeF n r

def finalEscape (s : List Char) : List Char := finalEscapeF s.length s

/-- One paragraph of `formatText` (src/js/formatter.js lines 48-78): a
blank paragraph maps to the empty string; otherwise the dialogue,
thoughts and emphasis replacements run in order on the raw paragraph
(each on the previous one's output), the final pass escapes what lies
outside the produced spans, and the result is wrapped in a `<p>`
element. -/
def formatTextPara (dc thc ec : List Char) (p : List Char) : List Char :=
  if trimL p = [] then []
  else
    "<p>".data ++
      finalEscape
        (scanPairEsc '*' (ftEmPre ec) ftEmPost
          (scanPairEsc '\'' (ftThPre thc) ftThPost
            (scanPairEsc '"' (ftDlgPre dc) ftDlgPost p))) ++
      "</p>".data

/-- `formatText` (src/js/formatter.js lines 41-81): empty text maps to
the empty string; otherwise the text splits at blank lines, each piece
is formatted, and the pieces are joined with the empty separator. -/
def formatText (text dc thc ec : List Char) : List Char :=
  if text = [] then []
  else ((splitParas text).map (formatTextPara dc thc ec)).flatten

/-!
## Claim C7: pattern matches versus paragraph breaks
-/

theorem mem_of_headEq {x : Char} : ∀ {xs : List Char}, xs.head? = some x → x ∈ xs := by
  intro xs h
  cases xs with
  | nil => exact absurd h (by simp)
  | cons c r =>
    have hcx : c = x := by simpa using h
    subst hcx
    exact List.mem_cons_self c r

theorem mem_of_lastEq {x : Char} : ∀ {xs : List Char}, xs.getLast? = some x → x ∈ xs := by
  intro xs
  induction xs using List.reverseRecOn with
  | nil => intro h; exact absurd h (by simp)
  | append_singleton ys y _ =>
    intro h
    have hyx : y = x := by simpa using h
    subst hyx
    simp

theorem scanPairSpans_within {d : Char} :
    ∀ s : List Char,
      (∀ p ∈ scanPairSpans d s, p <:+: s) ∧
        (∀ acc, ∀ p ∈ scanPairSpansIn d acc s, p <:+: (acc.reverse ++ s)) := by
  intro s
  induction s with
  | nil =>
    refine ⟨fun p hp => ?_, fun acc p hp => ?_⟩
    · simp [scanPairSpans] at hp
    · simp [scanPairSpansIn] at hp
  | cons c r ih =>
    obtain ⟨ihOut, ihIn⟩ := ih
    constructor
    · intro p hp
      by_cases hc : c = d
      · subst hc
        rw [show scanPairSpans c (c :: r) = scanPairSpansIn c [] r by
          simp [scanPairSpans]] at hp
        have := ihIn [] p hp
        simp only [List.reverse_nil, List.nil_append] at this
        exact List.infix_cons_iff.mpr (Or.inr this)
      · rw [show scanPairSpans d (c :: r) = scanPairSpans d r by
          simp [scanPairSpans, hc]] at hp
        exact List.infix_cons_iff.mpr (Or.inr (ihOut p hp))
    · intro acc p hp
      by_cases hc : c = d
      · subst hc
        by_cases hae : acc = []
        · subst hae
          rw [show scanPairSpansIn c [] (c :: r) = scanPairSpansIn c [] r by
            simp [scanPairSpansIn]] at hp
          have := ihIn [] p hp
          simp only [List.reverse_nil, List.nil_append] at this
          exact this.trans ⟨[c], [], by simp⟩
        · rw [show scanPairSpansIn c acc (c :: r) =
              acc.reverse :: scanPairSpans c r by simp [scanPairSpansIn, hae]] at hp
          rcases List.mem_cons.mp hp with hp | hp
          · subst hp
            exact ⟨[], c :: r, by simp⟩
          · exact (ihOut p hp).trans ⟨acc.reverse ++ [c], [], by simp⟩
      · rw [show scanPairSpansIn d acc (c :: r) =
            scanPairSpansIn d (c :: acc) r by simp [scanPairSpansIn, hc]] at hp
        have := ihIn (c :: acc) p hp
        simpa using this

theorem splitParas_cons_ne {c : Char} (r : List Char) (h : c ≠ '\n') :
    splitParas (c :: r) = consFirst c (splitParas r) := by
  simp [splitParas, h]

theorem splitParas_nl_single {r : List Char} (h : r.head? ≠ some '\n') :
    splitParas ('\n' :: r) = consFirst '\n' (splitParas r) := by
  cases r with
  | nil => rfl
  | cons c2 r2 =>
    have hc2 : c2 ≠ '\n' := fun he => h (by simp [he])
    simp [splitParas, hc2]

theorem splitParas_ne_nil :
    ∀ s : List Char, splitParas s ≠ [] ∧ splitParasSkip s ≠ [] := by
  intro s
  induction s with
  | nil => exact ⟨by simp [splitParas], by simp [splitParasSkip]⟩
  | cons c r ih =>
    constructor
    · by_cases hc : c = '\n'
      · subst hc
        cases r with
        | nil => simp [splitParas, consFirst]
        | cons c2 r2 =>
          by_cases hc2 : c2 = '\n'
          · subst hc2
            simp [splitParas]
          · rw [splitParas_nl_single (by simp [hc2])]
            cases hL : splitParas (c2 :: r2) with
            | nil => simp [consFirst]
            | cons q qs => simp [consFirst]
      · rw [splitParas_cons_ne r hc]
        cases hL : splitParas r with
        | nil => simp [consFirst]
        | cons q qs => simp [consFirst]
    · by_cases hc : c = '\n'
      · subst hc
        rw [show splitParasSkip ('\n' :: r) = splitParasSkip r by
          simp [splitParasSkip]]
        exact ih.2
      · rw [show splitParasSkip (c :: r) = consFirst c (splitParas r) by
          simp [splitParasSkip, hc]]
        cases hL : splitParas r with
        | nil => simp [consFirst]
        | cons q qs => simp [consFirst]

theorem splitParas_first_head :
    ∀ (r p : List Char) (ps : List (List Char)) (x : Char),
      splitParas r = p :: ps → p.head? = some x → r.head? = some x := by
  intro r p ps x hsp hx
  cases r with
  | nil =>
    rw [show splitParas [] = [[]] from rfl] at hsp
    injection hsp with h1 h2
    subst h1
    exact absurd hx (by simp)
  | cons c r' =>
    by_cases hc : c = '\n'
    · subst hc
      cases r' with
      | nil =>
        rw [show splitParas ['\n'] = [['\n']] from rfl] at hsp
        injection hsp with h1 h2
        subst h1
        simp at hx
        simpa using hx
      | cons c2 r2 =>
        by_cases hc2 : c2 = '\n'
        · subst hc2
          rw [show splitParas ('\n' :: '\n' :: r2) = [] :: splitParasSkip r2
            from rfl] at hsp
          injection hsp with h1 h2
          subst h1
          exact absurd hx (by simp)
        · rw [splitParas_nl_single (by simp [hc2])] at hsp
          cases hL : splitParas (c2 :: r2) with
          | nil => exact absurd hL (splitParas_ne_nil (c2 :: r2)).1
          | cons q qs =>
            rw [hL] at hsp
            simp only [consFirst] at hsp
            injection hsp with h1 h2
            subst h1
            simp at hx
            simpa using hx
    · rw [splitParas_cons_ne r' hc] at hsp
      cases hL : splitParas r' with
      | nil => exact absurd hL (splitParas_ne_nil r').1
      | cons q qs =>
        rw [hL] at hsp
        simp only [consFirst] at hsp
        injection hsp with h1 h2
        subst h1
        simp at hx
        simpa using hx

theorem pair_infix_cons {a b c : Char} {p : List Char}
    (h : [a, b] <:+: c :: p) :
    [a, b] <:+: p ∨ (c = a ∧ p.head? = some b) := by
  rcases List.infix_cons_iff.mp h with hp | hi
  · obtain ⟨hab, htail⟩ := List.cons_prefix_cons.mp hp
    obtain ⟨t, ht⟩ := htail
    right
    refine ⟨hab.symm, ?_⟩
    rw [← ht]
    rfl
  · exact Or.inl hi

theorem pair_infix_append {a b : Char} :
    ∀ {xs ys : List Char}, [a, b] <:+: xs ++ ys →
      [a, b] <:+: xs ∨ [a, b] <:+: ys ∨
        (xs.getLast? = some a ∧ ys.head? = some b) := by
  intro xs
  induction xs with
  | nil => intro ys h; exact Or.inr (Or.inl (by simpa using h))
  | cons x xs ih =>
    intro ys h
    rcases pair_infix_cons (by simpa using h) with hi | ⟨hxa, hh⟩
    · rcases ih hi with h1 | h2 | ⟨hl, hh⟩
      · exact Or.inl (List.infix_cons_iff.mpr (Or.inr h1))
      · exact Or.inr (Or.inl h2)
      · refine Or.inr (Or.inr ⟨?_, hh⟩)
        cases xs with
        | nil => exact absurd hl (by simp)
        | cons x2 xs2 => rw [List.getLast?_cons_cons]; exact hl
    · subst hxa
      cases xs with
      | nil =>
        refine Or.inr (Or.inr ⟨by simp, ?_⟩)
        simpa using hh
      | cons x2 xs2 =>
        have hx2 : x2 = b := by
          simpa using hh
        subst hx2
        exact Or.inl ⟨[], xs2, by simp⟩

theorem escapeChar_no_break (c : Char) : ¬ (['\n', '\n'] <:+: escapeChar c) := by
  unfold escapeChar
  split_ifs <;>
    first
      | decide
      | (intro h; have := h.length_le; simp at this)

theorem escapeChar_last_nl {c : Char}
    (h : (escapeChar c).getLast? = some '\n') : c = '\n' := by
  revert h
  unfold escapeChar
  split_ifs <;> intro h <;> simp_all

theorem escapeChar_ne_nil (c : Char) : escapeChar c ≠ [] := by
  unfold escapeChar
  split_ifs <;> simp

theorem escapeChar_head_nl {c : Char}
    (h : (escapeChar c).head? = some '\n') : c = '\n' := by
  revert h
  unfold escapeChar
  split_ifs <;> intro h <;> simp_all

theorem escapeHtml_head_nl :
    ∀ {r : List Char}, (escapeHtml r).head? = some '\n' →
      r.head? = some '\n' := by
  intro r h
  cases r with
  | nil => exact absurd h (by simp [escapeHtml])
  | cons c2 r2 =>
    have : (escapeChar c2 ++ escapeHtml r2).head? = some '\n' := h
    rw [List.head?_append_of_ne_nil _ (escapeChar_ne_nil c2)] at this
    rw [escapeChar_head_nl this]
    rfl

theorem escapeHtml_no_break :
    ∀ {p : List Char}, ¬ (['\n', '\n'] <:+: p) →
      ¬ (['\n', '\n'] <:+: escapeHtml p) := by
  intro p
  induction p with
  | nil => intro _ h; have := h.length_le; simp [escapeHtml] at this
  | cons c r ih =>
    intro hp h
    rcases pair_infix_append (a := '\n') (b := '\n') h with h1 | h2 | ⟨hl, hh⟩
    · exact escapeChar_no_break c h1
    · exact ih (fun hm => hp (List.infix_cons_iff.mpr (Or.inr hm))) h2
    · have hc : c = '\n' := escapeChar_last_nl hl
      have hr : r.head? = some '\n' := escapeHtml_head_nl hh
      cases r with
      | nil => exact absurd hr (by simp)
      | cons c2 r2 =>
        have hc2 : c2 = '\n' := by simpa using hr
        subst hc; subst hc2
        exact hp ⟨[], r2, rfl⟩

/-- The head of a `scanPairEsc` output is a character of `pre`, the
delimiter, or the input's own head. -/
theorem scanPairEsc_head (d : Char) (pre post : List Char) (hpre : pre ≠ []) :
    ∀ s : List Char,
      (∀ x, (scanPairEsc d pre post s).head? = some x →
          x ∈ pre ∨ x = d ∨ s.head? = some x) ∧
        (∀ acc x, (scanPairEscIn d pre post acc s).head? = some x →
          x ∈ pre ∨ x = d) := by
  intro s
  induction s with
  | nil =>
    constructor
    · intro x hx
      exact absurd hx (by simp [scanPairEsc])
    · intro acc x hx
      have hdx : d = x := by
        have : (d :: acc.reverse).head? = some x := hx
        simpa using this
      exact Or.inr hdx.symm
  | cons c r ih =>
    obtain ⟨ihOut, ihIn⟩ := ih
    constructor
    · intro x hx
      by_cases hc : c = d
      · subst hc
        rw [show scanPairEsc c pre post (c :: r) = scanPairEscIn c pre post [] r by
          simp [scanPairEsc]] at hx
        rcases ihIn [] x hx with h | h
        · exact Or.inl h
        · exact Or.inr (Or.inl h)
      · rw [show scanPairEsc d pre post (c :: r) = c :: scanPairEsc d pre post r by
          simp [scanPairEsc, hc]] at hx
        have hcx : c = x := by simpa using hx
        exact Or.inr (Or.inr (by simp [hcx]))
    · intro acc x hx
      by_cases hc : c = d
      · subst hc
        by_cases hae : acc = []
        · subst hae
          rw [show scanPairEscIn c pre post [] (c :: r) =
              c :: scanPairEscIn c pre post [] r by simp [scanPairEscIn]] at hx
          have hcx : c = x := by simpa using hx
          exact Or.inr hcx.symm
        · rw [show scanPairEscIn c pre post acc (c :: r) =
              pre ++ escapeHtml acc.reverse ++ post ++ scanPairEsc c pre post r by
            simp [scanPairEscIn, hae]] at hx
          rw [List.append_assoc, List.append_assoc] at hx
          rw [List.head?_append_of_ne_nil _ hpre] at hx
          exact Or.inl (mem_of_headEq hx)
      · rw [show scanPairEscIn d pre post acc (c :: r) =
            scanPairEscIn d pre post (c :: acc) r by simp [scanPairEscIn, hc]] at hx
        exact ihIn (c :: acc) x hx

/-- A `scanPairEsc` replacement never creates a paragraph break: when
the input (taken from the opening delimiter in the inside state) holds
no `\n\n` and neither markup piece holds a newline, the output holds no
`\n\n` either. -/
theorem scanPairEsc_no_break (d : Char) (pre post : List Char)
    (hd : d ≠ '\n') (hpre : '\n' ∉ pre) (hpren : pre ≠ [])
    (hpost : '\n' ∉ post) (hpostn : post ≠ []) :
    ∀ s : List Char,
      (¬ (['\n', '\n'] <:+: s) → ¬ (['\n', '\n'] <:+: scanPairEsc d pre post s)) ∧
        (∀ acc, ¬ (['\n', '\n'] <:+: d :: acc.reverse ++ s) →
          ¬ (['\n', '\n'] <:+: scanPairEscIn d pre post acc s)) := by
  intro s
  induction s with
  | nil =>
    constructor
    · intro _ h
      have := h.length_le
      simp [scanPairEsc] at this
    · intro acc hinv h
      exact hinv (by simpa using h)
  | cons c r ih =>
    obtain ⟨ihOut, ihIn⟩ := ih
    constructor
    · intro hs
      by_cases hc : c = d
      · subst hc
        rw [show scanPairEsc c pre post (c :: r) = scanPairEscIn c pre post [] r by
          simp [scanPairEsc]]
        exact ihIn [] (by simpa using hs)
      · rw [show scanPairEsc d pre post (c :: r) = c :: scanPairEsc d pre post r by
          simp [scanPairEsc, hc]]
        intro hbr
        have hr : ¬ (['\n', '\n'] <:+: r) :=
          fun hm => hs (List.infix_cons_iff.mpr (Or.inr hm))
        rcases pair_infix_cons hbr with hi | ⟨hca, hh⟩
        · exact ihOut hr hi
        · rcases (scanPairEsc_head d pre post hpren r).1 '\n' hh with h1 | h2 | h3
          · exact hpre h1
          · exact hd h2.symm
          · subst hca
            cases r with
            | nil => exact absurd h3 (by simp)
            | cons c2 r2 =>
              have hc2 : c2 = '\n' := by simpa using h3
              subst hc2
              exact hs ⟨[], r2, rfl⟩
    · intro acc hinv
      by_cases hc : c = d
      · subst hc
        by_cases hae : acc = []
        · subst hae
          rw [show scanPairEscIn c pre post [] (c :: r) =
              c :: scanPairEscIn c pre post [] r by simp [scanPairEscIn]]
          intro hbr
          rcases pair_infix_cons hbr with hi | ⟨hca, _⟩
          · refine ihIn [] ?_ hi
            intro hm
            exact hinv (hm.trans ⟨[c], [], by simp⟩)
          · exact hd hca
        · rw [show scanPairEscIn c pre post acc (c :: r) =
              pre ++ escapeHtml acc.reverse ++ post ++ scanPairEsc c pre post r by
            simp [scanPairEscIn, hae]]
          rw [List.append_assoc, List.append_assoc]
          intro hbr
          have hcontent : ¬ (['\n', '\n'] <:+: acc.reverse) := fun hm =>
            hinv (hm.trans ⟨[c], c :: r, rfl⟩)
          have hr : ¬ (['\n', '\n'] <:+: r) := fun hm =>
            hinv (hm.trans ⟨c :: acc.reverse ++ [c], [], by simp⟩)
          rcases pair_infix_append (a := '\n') (b := '\n') hbr with h1 | h2 | ⟨hl, _⟩
          · exact hpre (h1.subset (by simp))
          · rcases pair_infix_append (a := '\n') (b := '\n') h2 with h3 | h4 | ⟨_, hh2⟩
            · exact escapeHtml_no_break hcontent h3
            · rcases pair_infix_append (a := '\n') (b := '\n') h4 with h5 | h6 | ⟨hl3, _⟩
              · exact hpost (h5.subset (by simp))
              · exact ihOut hr h6
              · exact hpost (mem_of_lastEq hl3)
            · rw [List.head?_append_of_ne_nil _ hpostn] at hh2
              exact hpost (mem_of_headEq hh2)
          · exact hpre (mem_of_lastEq hl)
      · rw [show scanPairEscIn d pre post acc (c :: r) =
            scanPairEscIn d pre post (c :: acc) r by simp [scanPairEscIn, hc]]
        refine ihIn (c :: acc) ?_
        intro hm
        apply hinv
        have heq : d :: (c :: acc).reverse ++ r = d :: acc.reverse ++ (c :: r) := by
          simp
        rw [heq] at hm
        exact hm

theorem splitParas_no_break :
    ∀ (n : Nat) (s : List Char), s.length ≤ n →
      (∀ p ∈ splitParas s, ¬ (['\n', '\n'] <:+: p)) ∧
        (∀ p ∈ splitParasSkip s, ¬ (['\n', '\n'] <:+: p)) := by
  intro n
  induction n with
  | zero =>
    intro s hlen
    have hs : s = [] := List.length_eq_zero.mp (Nat.le_zero.mp hlen)
    subst hs
    constructor
    · intro p hp
      rw [show splitParas [] = [[]] from rfl] at hp
      simp only [List.mem_singleton] at hp
      subst hp
      intro h
      have := h.length_le
      simp at this
    · intro p hp
      rw [show splitParasSkip [] = [[]] from rfl] at hp
      simp only [List.mem_singleton] at hp
      subst hp
      intro h
      have := h.length_le
      simp at this
  | succ m ih =>
    intro s hlen
    cases s with
    | nil => exact ih [] (by simp)
    | cons c r =>
      have hlenr : r.length ≤ m := by
        simp only [List.length_cons] at hlen
        omega
      have hmain : ∀ p ∈ consFirst c (splitParas r),
          (¬ (c = '\n' ∧ r.head? = some '\n')) → ¬ (['\n', '\n'] <:+: p) := by
        intro p hp hguard
        cases hL : splitParas r with
        | nil => exact absurd hL (splitParas_ne_nil r).1
        | cons q qs =>
          rw [hL] at hp
          simp only [consFirst, List.mem_cons] at hp
          rcases hp with hp | hp
          · subst hp
            intro hbr
            rcases pair_infix_cons hbr with hi | ⟨hca, hhead⟩
            · exact (ih r hlenr).1 q (by rw [hL]; simp) hi
            · rcases hq : q.head? with _ | x
              · rw [hq] at hhead; exact absurd hhead (by simp)
              · rw [hq] at hhead
                have hx : x = '\n' := by simpa using hhead
                subst hx
                exact hguard ⟨hca, splitParas_first_head r q qs '\n' hL hq⟩
          · exact (ih r hlenr).1 p (by rw [hL]; simp [hp])
      constructor
      · by_cases hc : c = '\n'
        · subst hc
          cases r with
          | nil =>
            intro p hp
            rw [show splitParas ['\n'] = [['\n']] from rfl] at hp
            simp only [List.mem_singleton] at hp
            subst hp
            decide
          | cons c2 r2 =>
            by_cases hc2 : c2 = '\n'
            · subst hc2
              intro p hp
              rw [show splitParas ('\n' :: '\n' :: r2) = [] :: splitParasSkip r2
                from rfl] at hp
              rcases List.mem_cons.mp hp with hp | hp
              · subst hp
                intro h
                have := h.length_le
                simp at this
              · have hlen2 : r2.length ≤ m := by
                  simp only [List.length_cons] at hlen
                  omega
                exact (ih r2 hlen2).2 p hp
            · intro p hp
              rw [splitParas_nl_single (by simp [hc2])] at hp
              exact hmain p hp (by simp [hc2])
        · intro p hp
          rw [splitParas_cons_ne r hc] at hp
          exact hmain p hp (by simp [hc])
      · by_cases hc : c = '\n'
        · subst hc
          intro p hp
          rw [show splitParasSkip ('\n' :: r) = splitParasSkip r from by
            simp [splitParasSkip]] at hp
          exact (ih r hlenr).2 p hp
        · intro p hp
          rw [show splitParasSkip (c :: r) = consFirst c (splitParas r) from by
            simp [splitParasSkip, hc]] at hp
          exact hmain p hp (by simp [hc])

/-- The paragraph-crossing example: a double-quoted pair whose content
holds a paragraph break. -/
def c7Input : List Char := '"' :: "a\n\nb".data ++ ['"']

/-- Counterexample to claim C7: in the realtime contenteditable
formatter the dialogue pattern matches across the paragraph break — the
rendered output wraps the content `a\n\nb`, which contains `\n\n`, in a
dialogue span, instead of leaving the characters plain. -/
theorem realtime_cross_paragraph_counterexample :
    scanPairSpans '"' (escapeHtml c7Input) = ["a\n\nb".data] ∧
      (['\n', '\n'] <:+: "a\n\nb".data) ∧
      applyRealtimeFormatting005 c7Input =
        dlgOpenTag ++ '"' :: "a\n\nb".data ++ '"' :: closeTag := by
  refine ⟨by decide, by decide, by decide⟩

/-- Claim C7 (amended): in the preview formatter no replacement pattern
is matched across a paragraph break — `formatText` splits the text at
`/\n\n+/` before any replacement runs, so in each paragraph the content
captured by the dialogue pattern, by the thoughts pattern (running on
the dialogue stage's output) and by the emphasis pattern (running on
the thoughts stage's output) never contains `\n\n`, the configured
colour strings holding no newline.  In the realtime formatter the claim
fails (see the counterexample): its patterns run on the whole text and
do span `\n\n`. -/
theorem preview_no_cross_paragraph (text dc thc p : List Char)
    (hdc : '\n' ∉ dc) (hthc : '\n' ∉ thc)
    (hp : p ∈ splitParas text) :
    (∀ cont ∈ scanPairSpans '"' p, ¬ (['\n', '\n'] <:+: cont)) ∧
      (∀ cont ∈ scanPairSpans '\''
          (scanPairEsc '"' (ftDlgPre dc) ftDlgPost p),
        ¬ (['\n', '\n'] <:+: cont)) ∧
      (∀ cont ∈ scanPairSpans '*'
          (scanPairEsc '\'' (ftThPre thc) ftThPost
            (scanPairEsc '"' (ftDlgPre dc) ftDlgPost p)),
        ¬ (['\n', '\n'] <:+: cont)) := by
  have hnb : ¬ (['\n', '\n'] <:+: p) :=
    (splitParas_no_break text.length text le_rfl).1 p hp
  have hpre1 : '\n' ∉ ftDlgPre dc := by
    unfold ftDlgPre
    simp only [List.mem_append]
    rintro ((h | h) | h)
    · exact absurd h (by decide)
    · exact hdc h
    · exact absurd h (by decide)
  have hpren1 : ftDlgPre dc ≠ [] := by
    unfold ftDlgPre
    intro h
    rw [List.append_eq_nil, List.append_eq_nil] at h
    exact absurd h.1.1 (by decide)
  have hpre2 : '\n' ∉ ftThPre thc := by
    unfold ftThPre
    simp only [List.mem_append]
    rintro (((h | h) | h) | h)
    · exact absurd h (by decide)
    · exact hthc h
    · exact absurd h (by decide)
    · exact absurd h (by decide)
  have hpren2 : ftThPre thc ≠ [] := by
    unfold ftThPre
    intro h
    rw [List.append_eq_nil, List.append_eq_nil, List.append_eq_nil] at h
    exact absurd h.1.1.1 (by decide)
  have hs1 : ¬ (['\n', '\n'] <:+: scanPairEsc '"' (ftDlgPre dc) ftDlgPost p) :=
    (scanPairEsc_no_break '"' (ftDlgPre dc) ftDlgPost (by decide)
      hpre1 hpren1 (by decide) (by decide) p).1 hnb
  have hs2 : ¬ (['\n', '\n'] <:+:
      scanPairEsc '\'' (ftThPre thc) ftThPost
        (scanPairEsc '"' (ftDlgPre dc) ftDlgPost p)) :=
    (scanPairEsc_no_break '\'' (ftThPre thc) ftThPost (by decide)
      hpre2 hpren2 (by decide) (by decide) _).1 hs1
  refine ⟨?_, ?_, ?_⟩
  · intro cont hc hbr
    exact hnb (hbr.trans ((scanPairSpans_within _).1 cont hc))
  · intro cont hc hbr
    exact hs1 (hbr.trans ((scanPairSpans_within _).1 cont hc))
  · intro cont hc hbr
    exact hs2 (hbr.trans ((scanPairSpans_within _).1 cont hc))

theorem preview_no_cross_paragraph_witness :
    "x\ny".data ∈ scanPairSpans '*'
        (scanPairEsc '\'' (ftThPre "#3498db".data) ftThPost
          (scanPairEsc '"' (ftDlgPre "#e67e22".data) ftDlgPost
            "a *x\ny* b".data)) ∧
      ¬ (['\n', '\n'] <:+: "x\ny".data) :=
  ⟨by decide,
    (preview_no_cross_paragraph "a *x\ny* b\n\nc".data "#e67e22".data
        "#3498db".data "a *x\ny* b".data (by decide) (by decide)
        (by decide)).2.2 "x\ny".data (by decide)⟩

/-!
## Generation splice session (`handleGenerate`, src/unnamed/part_002
lines 574-671 and src/unnamed/part_001 lines 655-752)

`handleGenerate` captures `textBefore`/`textAfter` once from the buffer
at the caret and closes over them; each streaming chunk callback and the
completion callback run
`FormatterModule.setPlainText(editor, textBefore + generatedText + textAfter)`
followed by
`FormatterModule.setCursorOffset(editor, textBefore.length + generatedText.length)`.
`setPlainText` assigns `textContent` and re-renders through
`applyRealtimeFormatting`, so the buffer afterwards is the extracted
plain text of the render; `setCursorOffset` goes through
`restoreCursorPosition`, which clamps the offset to the buffer length.
-/

/-- The editor surface as the splice controller sees it: the plain-text
buffer and the caret offsets. -/
structure EditorModel where
  buffer : List Char
  caretStart : Nat
  caretEnd : Nat
deriving DecidableEq

/-- One chunk (or completion) callback of `handleGenerate`, for the
captured `before`/`after` and the accumulated generated text `acc`. -/
def spliceStep (before after acc : List Char) : EditorModel :=
  let buf := textContentOf (applyRealtimeFormatting005 (before ++ acc ++ after))
  let pos := min (before.length + acc.length) buf.length
  ⟨buf, pos, pos⟩

/-- The round trip of the full part_005 realtime pipeline is the
identity on asterisk-free text: the quote stages keep every character
and the emphasis stage finds nothing to strip. -/
theorem roundtrip_of_no_star {t : List Char} (h : '*' ∉ t) :
    textContentOf (applyRealtimeFormatting005 t) = t := by
  have h1 : '*' ∉ escapeHtml t := escapeHtml_not_mem (by decide) h
  have h2 : '*' ∉ dialogueReplace (escapeHtml t) :=
    (scanPair_mem (by decide) (by decide) (by decide) _ h1).1
  have h3 : '*' ∉ scanThought true (dialogueReplace (escapeHtml t)) :=
    (scanThought_mem (by decide) (by decide) (by decide) _ h2).1 true
  show textContentOf (emphasisReplace
    (scanThought true (dialogueReplace (escapeHtml t)))) = t
  rw [show emphasisReplace (scanThought true (dialogueReplace (escapeHtml t))) =
      scanThought true (dialogueReplace (escapeHtml t)) from
    scanPair_id_of_not_mem h3]
  exact realtime005_roundtrip_core t

/-- Counterexample to claim C1: with empty `before`/`after` and the
single chunk `*x*`, the buffer after the chunk callback is `x`, not
`before ++ accumulated ++ after` — the emphasis formatter strips the
asterisk pair during the re-render. -/
theorem splice_invariant_counterexample :
    (spliceStep [] [] "*x*".data).buffer = "x".data ∧
      (spliceStep [] [] "*x*".data).buffer ≠ [] ++ "*x*".data ++ [] := by
  refine ⟨by decide, by decide⟩

/-- Claim C1 (amended): `before` and `after` are captured once and
closed over (they are fixed parameters of every callback of the
session), and provided the captured texts and the chunks contain no
asterisk, after the `k`-th chunk callback — and at completion, which is
the case `k = chunks.length` — the buffer equals exactly
`before ++ accumulated ++ after` and the caret sits at
`before.length + accumulated.length`.  When the concatenation contains
a matched emphasis run the re-render strips the asterisk delimiters
(see the counterexample). -/
theorem splice_invariant (before after : List Char)
    (chunks : List (List Char)) (k : Nat) (hb : '*' ∉ before)
    (ha : '*' ∉ after) (hc : ∀ ch ∈ chunks, '*' ∉ ch) :
    (spliceStep before after ((chunks.take k).flatten)).buffer =
        before ++ (chunks.take k).flatten ++ after ∧
      (spliceStep before after ((chunks.take k).flatten)).caretStart =
        before.length + ((chunks.take k).flatten).length ∧
      (spliceStep before after ((chunks.take k).flatten)).caretEnd =
        before.length + ((chunks.take k).flatten).length := by
  have hacc : '*' ∉ (chunks.take k).flatten := by
    intro hm
    rcases List.mem_flatten.mp hm with ⟨l, hl, hml⟩
    exact hc l (List.take_subset k chunks hl) hml
  have hnt : '*' ∉ before ++ (chunks.take k).flatten ++ after := by
    simp only [List.mem_append]
    rintro ((hm | hm) | hm)
    · exact hb hm
    · exact hacc hm
    · exact ha hm
  have hbuf := roundtrip_of_no_star hnt
  refine ⟨hbuf, ?_, ?_⟩ <;>
    · show min (before.length + ((chunks.take k).flatten).length) _ = _
      rw [hbuf]
      simp only [List.length_append]
      omega

theorem splice_invariant_witness :
    (spliceStep "It was dark. ".data " The end.".data
        ((["She".data, " walked on.".data].take 2).flatten)).buffer =
        "It was dark. ".data ++ (["She".data, " walked on.".data].take 2).flatten ++
          " The end.".data ∧
      (spliceStep "It was dark. ".data " The end.".data
          ((["She".data, " walked on.".data].take 2).flatten)).caretStart =
        "It was dark. ".data.length +
          ((["She".data, " walked on.".data].take 2).flatten).length ∧
      (spliceStep "It was dark. ".data " The end.".data
          ((["She".data, " walked on.".data].take 2).flatten)).caretEnd =
        "It was dark. ".data.length +
          ((["She".data, " walked on.".data].take 2).flatten).length :=
  splice_invariant "It was dark. ".data " The end.".data
    ["She".data, " walked on.".data] 2 (by decide) (by decide) (by decide)

/-!
## Cursor restore (src/unnamed/part_005 lines 57-94 and
src/unnamed/part_004 lines 59-91)

The rendered document is a tree of text nodes and elements.
`restoreCursorPosition` walks the tree with an explicit stack, visiting
text nodes in document order, accumulating `charIndex`, placing the
range start in the first text node whose span covers the start offset
and the range end likewise, then stopping.  The walk below threads the
same state through the text nodes in document order (a visit after
`stop` leaves the state untouched, as the source's loop exit does).
The selection after `selection.addRange(range)` is modelled by the
range's boundary offsets in the whole document: re-capturing with
`saveCursorPosition` returns exactly these.  A range whose start was
never set stays the fresh collapsed range at the document origin, which
re-captures as `(0, 0)`; a range whose end was never set is collapsed
to its start.
-/

inductive DNode where
  | text (s : List Char)
  | elem (kids : List DNode)

mutual

def textLenN : DNode → Nat
  | .text s => s.length
  | .elem kids => textLenL kids

def textLenL : List DNode → Nat
  | [] => 0
  | n :: ns => textLenN n + textLenL ns

end

/-- The walk state: `charIndex`, `foundStart`, `stop` as in the source,
and the absolute document offsets of the two range boundaries that have
been set. -/
structure RState where
  charIndex : Nat
  foundStart : Bool
  stop : Bool
  rangeStart : Option Nat
  rangeEnd : Option Nat
deriving DecidableEq

/-- Visiting one text node of length `t.length` (the body of the
`while` loop's text-node branch).  The part_005 variant sets the local
offset as `min (ss - charIndex) t.length`; part_004 writes
`ss - charIndex`, equal under the guard `ss ≤ nextCharIndex`. -/
def visitText (ss se : Nat) (t : List Char) (st : RState) : RState :=
  if st.stop then st
  else
    let nextIdx := st.charIndex + t.length
    let st1 :=
      if !st.foundStart && decide (st.charIndex ≤ ss) && decide (ss ≤ nextIdx) then
        { st with
          foundStart := true
          rangeStart := some (st.charIndex + min (ss - st.charIndex) t.length) }
      else st
    let st2 :=
      if st1.foundStart && decide (st1.charIndex ≤ se) && decide (se ≤ nextIdx) then
        { st1 with
          stop := true
          rangeEnd := some (st1.charIndex + min (se - st1.charIndex) t.length) }
      else st1
    { st2 with charIndex := nextIdx }

mutual

def walkN (ss se : Nat) : DNode → RState → RState
  | .text t, st => visitText ss se t st
  | .elem kids, st => walkL ss se kids st

def walkL (ss se : Nat) : List DNode → RState → RState
  | [], st => st
  | n :: ns, st => walkL ss se ns (walkN ss se n st)

end

def initR : RState := ⟨0, false, false, none, none⟩

/-- What the selection re-captures after `restoreCursorPosition` of
part_005 (which clamps both offsets to the total text length before the
walk). -/
def restoreCapture005 (root : DNode) (s e : Nat) : Nat × Nat :=
  let L := textLenN root
  let st := walkN (min s L) (min e L) root initR
  match st.rangeStart, st.rangeEnd with
  | some a, some b => (a, b)
  | some a, none => (a, a)
  | none, _ => (0, 0)

/-- What the selection re-captures after `restoreCursorPosition` of
part_004, which runs the same walk on the raw saved offsets — no
clamping. -/
def restoreCapture004 (root : DNode) (s e : Nat) : Nat × Nat :=
  let st := walkN s e root initR
  match st.rangeStart, st.rangeEnd with
  | some a, some b => (a, b)
  | some a, none => (a, a)
  | none, _ => (0, 0)

mutual

def leavesN : DNode → List (List Char)
  | .text s => [s]
  | .elem kids => leavesL kids

def leavesL : List DNode → List (List Char)
  | [] => []
  | n :: ns => leavesN n ++ leavesL ns

end

def sumLen : List (List Char) → Nat
  | [] => 0
  | t :: ts => t.length + sumLen ts

def foldWalk (ss se : Nat) (ts : List (List Char)) (st : RState) : RState :=
  ts.foldl (fun st t => visitText ss se t st) st

theorem sumLen_append : ∀ a b : List (List Char), sumLen (a ++ b) = sumLen a + sumLen b := by
  intro a b
  induction a with
  | nil => simp [sumLen]
  | cons t ts ih => simp [sumLen, ih]; omega

mutual

theorem walkN_eq_fold (ss se : Nat) :
    ∀ (n : DNode) (st : RState), walkN ss se n st = foldWalk ss se (leavesN n) st
  | .text t, st => by
    rw [show walkN ss se (.text t) st = visitText ss se t st from rfl,
      show leavesN (.text t) = [t] from rfl]
    rfl
  | .elem kids, st => by
    rw [show walkN ss se (.elem kids) st = walkL ss se kids st from rfl,
      show leavesN (.elem kids) = leavesL kids from rfl]
    exact walkL_eq_fold ss se kids st

theorem walkL_eq_fold (ss se : Nat) :
    ∀ (ns : List DNode) (st : RState), walkL ss se ns st = foldWalk ss se (leavesL ns) st
  | [], st => rfl
  | n :: ns, st => by
    rw [show walkL ss se (n :: ns) st = walkL ss se ns (walkN ss se n st) from rfl,
      walkN_eq_fold ss se n st, walkL_eq_fold ss se ns _,
      show leavesL (n :: ns) = leavesN n ++ leavesL ns from rfl]
    simp [foldWalk, List.foldl_append]

end

mutual

theorem textLenN_eq_sum : ∀ n : DNode, textLenN n = sumLen (leavesN n)
  | .text t => by
    rw [show textLenN (.text t) = t.length from rfl,
      show leavesN (.text t) = [t] from rfl]
    simp [sumLen]
  | .elem kids => by
    rw [show textLenN (.elem kids) = textLenL kids from rfl,
      show leavesN (.elem kids) = leavesL kids from rfl]
    exact textLenL_eq_sum kids

theorem textLenL_eq_sum : ∀ ns : List DNode, textLenL ns = sumLen (leavesL ns)
  | [] => rfl
  | n :: ns => by
    rw [show textLenL (n :: ns) = textLenN n + textLenL ns from rfl,
      textLenN_eq_sum n, textLenL_eq_sum ns,
      show leavesL (n :: ns) = leavesN n ++ leavesL ns from rfl,
      sumLen_append]

end

theorem visitText_stop {ss se : Nat} {t : List Char} {st : RState}
    (h : st.stop = true) : visitText ss se t st = st := by
  simp [visitText, h]

theorem foldWalk_stop {ss se : Nat} :
    ∀ (ts : List (List Char)) (st : RState), st.stop = true →
      foldWalk ss se ts st = st := by
  intro ts
  induction ts with
  | nil => intro st _; rfl
  | cons t ts ih =>
    intro st h
    show foldWalk ss se ts (visitText ss se t st) = st
    rw [visitText_stop h]
    exact ih st h

theorem visitText_pass {ss se : Nat} {t : List Char} {st : RState}
    (hstop : st.stop = false)
    (hs : (!st.foundStart && decide (st.charIndex ≤ ss) &&
      decide (ss ≤ st.charIndex + t.length)) = false)
    (he : (st.foundStart && decide (st.charIndex ≤ se) &&
      decide (se ≤ st.charIndex + t.length)) = false) :
    visitText ss se t st = { st with charIndex := st.charIndex + t.length } := by
  obtain ⟨ci, fs, sp, rs, re⟩ := st
  simp only at hstop hs he
  subst hstop
  simp [visitText, hs, he]

theorem visitText_start_end {ss se : Nat} {t : List Char} {st : RState}
    (hstop : st.stop = false) (hfs : st.foundStart = false)
    (h1 : st.charIndex ≤ ss) (h2 : ss ≤ st.charIndex + t.length)
    (h3 : ss ≤ se) (h4 : se ≤ st.charIndex + t.length) :
    visitText ss se t st =
      { st with
        charIndex := st.charIndex + t.length
        foundStart := true
        stop := true
        rangeStart := some ss
        rangeEnd := some se } := by
  obtain ⟨ci, fs, sp, rs, re⟩ := st
  simp only at hstop hfs h1 h2 h4 ⊢
  subst hstop; subst hfs
  have hm1 : ci + min (ss - ci) t.length = ss := by omega
  have hm2 : ci + min (se - ci) t.length = se := by omega
  simp [visitText, h1, h2, h4, Nat.le_trans h1 h3, hm1, hm2]

theorem visitText_start_only {ss se : Nat} {t : List Char} {st : RState}
    (hstop : st.stop = false) (hfs : st.foundStart = false)
    (h1 : st.charIndex ≤ ss) (h2 : ss ≤ st.charIndex + t.length)
    (h4 : ¬ se ≤ st.charIndex + t.length) :
    visitText ss se t st =
      { st with
        charIndex := st.charIndex + t.length
        foundStart := true
        rangeStart := some ss } := by
  obtain ⟨ci, fs, sp, rs, re⟩ := st
  simp only at hstop hfs h1 h2 h4 ⊢
  subst hstop; subst hfs
  have hm1 : ci + min (ss - ci) t.length = ss := by omega
  simp [visitText, h1, h2, h4, hm1]

theorem visitText_end {ss se : Nat} {t : List Char} {st : RState}
    (hstop : st.stop = false) (hfs : st.foundStart = true)
    (h1 : st.charIndex ≤ se) (h2 : se ≤ st.charIndex + t.length) :
    visitText ss se t st =
      { st with
        charIndex := st.charIndex + t.length
        stop := true
        rangeEnd := some se } := by
  obtain ⟨ci, fs, sp, rs, re⟩ := st
  simp only at hstop hfs h1 h2 ⊢
  subst hstop; subst hfs
  have hm2 : ci + min (se - ci) t.length = se := by omega
  simp [visitText, h1, h2, hm2]

theorem foldWalk_end (ss se : Nat) :
    ∀ (ts : List (List Char)) (st : RState), st.foundStart = true →
      st.stop = false → st.charIndex ≤ se → se ≤ st.charIndex + sumLen ts →
      ts ≠ [] →
      (foldWalk ss se ts st).rangeStart = st.rangeStart ∧
        (foldWalk ss se ts st).rangeEnd = some se := by
  intro ts
  induction ts with
  | nil => intro st _ _ _ _ hne; exact absurd rfl hne
  | cons t ts ih =>
    intro st hfs hstop hcis hsum _
    have hstep : foldWalk ss se (t :: ts) st =
        foldWalk ss se ts (visitText ss se t st) := rfl
    rw [hstep]
    have hsums : sumLen (t :: ts) = t.length + sumLen ts := rfl
    by_cases hse : se ≤ st.charIndex + t.length
    · rw [visitText_end hstop hfs hcis hse, foldWalk_stop ts _ rfl]
      exact ⟨rfl, rfl⟩
    · rw [visitText_pass hstop (by simp [hfs]) (by simp [hse])]
      have hne2 : ts ≠ [] := by
        intro he
        subst he
        rw [hsums] at hsum
        simp only [sumLen] at hsum
        omega
      refine ih { st with charIndex := st.charIndex + t.length } hfs hstop ?_ ?_ hne2
      · show st.charIndex + t.length ≤ se
        omega
      · show se ≤ st.charIndex + t.length + sumLen ts
        rw [hsums] at hsum
        omega

theorem foldWalk_start_end (ss se : Nat) (hsse : ss ≤ se) :
    ∀ (ts : List (List Char)) (st : RState), st.foundStart = false →
      st.stop = false → st.charIndex ≤ ss → se ≤ st.charIndex + sumLen ts →
      ts ≠ [] →
      (foldWalk ss se ts st).rangeStart = some ss ∧
        (foldWalk ss se ts st).rangeEnd = some se := by
  intro ts
  induction ts with
  | nil => intro st _ _ _ _ hne; exact absurd rfl hne
  | cons t ts ih =>
    intro st hfs hstop hcis hsum _
    have hstep : foldWalk ss se (t :: ts) st =
        foldWalk ss se ts (visitText ss se t st) := rfl
    rw [hstep]
    have hsums : sumLen (t :: ts) = t.length + sumLen ts := rfl
    rw [hsums] at hsum
    by_cases hss : ss ≤ st.charIndex + t.length
    · by_cases hse : se ≤ st.charIndex + t.length
      · rw [visitText_start_end hstop hfs hcis hss hsse hse, foldWalk_stop ts _ rfl]
        exact ⟨rfl, rfl⟩
      · rw [visitText_start_only hstop hfs hcis hss hse]
        have hne2 : ts ≠ [] := by
          intro he
          subst he
          simp only [sumLen] at hsum
          omega
        have hend := foldWalk_end ss se ts
          { st with
            charIndex := st.charIndex + t.length
            foundStart := true
            rangeStart := some ss }
          rfl hstop (show st.charIndex + t.length ≤ se by omega)
          (show se ≤ st.charIndex + t.length + sumLen ts by omega) hne2
        exact ⟨hend.1, hend.2⟩
    · rw [visitText_pass hstop (by simp [hss]) (by simp [hfs])]
      have hne2 : ts ≠ [] := by
        intro he
        subst he
        simp only [sumLen] at hsum
        omega
      refine ih { st with charIndex := st.charIndex + t.length } hfs hstop ?_ ?_ hne2
      · show st.charIndex + t.length ≤ ss
        omega
      · show se ≤ st.charIndex + t.length + sumLen ts
        omega

/-- The two-node document used for the cursor examples. -/
def c3Root : DNode := DNode.elem [DNode.text "ab".data, DNode.elem [DNode.text "cd".data]]

/-- Counterexample to claim C3: the part_004 variant has no bounds
check — restoring `{start: 5, end: 5}` into a document of total length
2 finds no text node, leaves the fresh collapsed range at the document
origin, and re-captures as `(0, 0)` instead of the offsets clamped to
the document end (which the clamping part_005 variant produces). -/
theorem restore_no_clamp_counterexample :
    restoreCapture004 (DNode.elem [DNode.text "ab".data]) 5 5 = (0, 0) ∧
      restoreCapture005 (DNode.elem [DNode.text "ab".data]) 5 5 = (2, 2) ∧
      (0, 0) ≠ (min 5 (textLenN (DNode.elem [DNode.text "ab".data])),
        min 5 (textLenN (DNode.elem [DNode.text "ab".data]))) := by
  refine ⟨by decide, by decide, by decide⟩

/-- Claim C3 (amended): in the part_005 variant, restoring a saved
position `{start: s, end: e}` with `s ≤ e` and re-capturing yields
exactly the offsets clamped to the document's total text length (an
offset beyond the content resolves to the document end); in the
part_004 variant the same round trip holds for positions within the
content (`e ≤` total length) — restore∘capture is the identity on the
visible selection there — but offsets beyond the content leave the
selection at the document origin instead (see the counterexample). -/
theorem restore_capture_roundtrip (root : DNode) (s e : Nat) (hse : s ≤ e) :
    restoreCapture005 root s e = (min s (textLenN root), min e (textLenN root)) ∧
      (e ≤ textLenN root → restoreCapture004 root s e = (s, e)) := by
  have hsum : sumLen (leavesN root) = textLenN root := (textLenN_eq_sum root).symm
  cases hleaves : leavesN root with
  | nil =>
    have hL : textLenN root = 0 := by rw [← hsum, hleaves]; rfl
    constructor
    · show (let L := textLenN root;
        let st := walkN (min s L) (min e L) root initR;
        match st.rangeStart, st.rangeEnd with
        | some a, some b => (a, b)
        | some a, none => (a, a)
        | none, _ => (0, 0)) = _
      rw [hL]
      simp only [Nat.min_zero]
      rw [walkN_eq_fold, hleaves]
      rfl
    · intro he
      have hs0 : s = 0 := by omega
      have he0 : e = 0 := by omega
      subst hs0; subst he0
      show (let st := walkN 0 0 root initR;
        match st.rangeStart, st.rangeEnd with
        | some a, some b => (a, b)
        | some a, none => (a, a)
        | none, _ => (0, 0)) = _
      rw [walkN_eq_fold, hleaves]
      rfl
  | cons t ts =>
    constructor
    · have hend := foldWalk_start_end (min s (textLenN root))
        (min e (textLenN root))
        (min_le_min hse le_rfl) (t :: ts) initR rfl rfl (Nat.zero_le _)
        (by
          show min e (textLenN root) ≤ 0 + sumLen (t :: ts)
          rw [← hleaves, hsum]
          simp)
        (by simp)
      show (match (walkN (min s (textLenN root)) (min e (textLenN root)) root initR).rangeStart,
          (walkN (min s (textLenN root)) (min e (textLenN root)) root initR).rangeEnd with
        | some a, some b => (a, b)
        | some a, none => (a, a)
        | none, _ => ((0 : Nat), (0 : Nat))) = _
      rw [walkN_eq_fold, hleaves]
      simp only [hend.1, hend.2]
    · intro he
      have hend := foldWalk_start_end s e hse (t :: ts) initR rfl rfl
        (Nat.zero_le _)
        (by
          show e ≤ 0 + sumLen (t :: ts)
          rw [← hleaves, hsum]
          omega)
        (by simp)
      show (match (walkN s e root initR).rangeStart,
          (walkN s e root initR).rangeEnd with
        | some a, some b => (a, b)
        | some a, none => (a, a)
        | none, _ => ((0 : Nat), (0 : Nat))) = _
      rw [walkN_eq_fold, hleaves]
      simp only [hend.1, hend.2]

theorem restore_capture_roundtrip_witness :
    restoreCapture005 c3Root 1 3 = (min 1 (textLenN c3Root), min 3 (textLenN c3Root)) ∧
      restoreCapture004 c3Root 1 3 = (1, 3) :=
  ⟨(restore_capture_roundtrip c3Root 1 3 (by decide)).1,
    (restore_capture_roundtrip c3Root 1 3 (by decide)).2 (by decide)⟩
